import Mathlib

/-!
Verification of the poker-lan core against its specification.

Shallow embedding of the repository's core: the hand evaluator from
`poker.js` and the table state machine / betting round engine from the
server module.  JavaScript numbers are modelled as `Int` for chip
quantities and seat indices (the code only ever performs integer
arithmetic on them) and as `Nat` for card values and hand scores.
Card rank strings are in bijection with their numeric `value`
(RANK_VALUE), so ranks are represented by their values.  Suits are
encoded 0 = spade, 1 = heart, 2 = diamond, 3 = club, following the
SUITS array order.  I/O (socket emissions, timers) is outside the
state model; the freshly shuffled deck created by `new Deck()` is
supplied as an explicit argument wherever the code constructs one.
-/

namespace PokerLan

/-- A playing card: `value` is the numeric rank (2..14, ace = 14) and
`suit` encodes the suit symbol (0..3 in SUITS order). -/
structure Card where
  value : Nat
  suit : Nat
deriving DecidableEq, Repr

/-- Descending insertion sort of cards by value, the evaluator's
`allCards.sort((a, b) => b.value - a.value)`. -/
def sortCardsDesc (cs : List Card) : List Card :=
  List.insertionSort (fun a b => b.value ≤ a.value) cs

/-- Descending insertion sort of naturals, the evaluator's
`uniqueValues.sort((a, b) => b - a)`. -/
def sortNatDesc (l : List Nat) : List Nat :=
  List.insertionSort (fun a b => b ≤ a) l

/-- First-occurrence deduplication, the semantics of
`[...new Set(list)]`. -/
def setDedup (l : List Nat) : List Nat :=
  l.foldl (fun acc v => if acc.contains v then acc else acc ++ [v]) []

/-- The helper `isFlush` from `evaluateHand`: the first suit, in order of first
appearance in the (descending-sorted) card list, holding at least five
cards; returns that suit's top five cards.  Scanning the cards in
order for one whose suit has five or more occurrences reproduces the
insertion-order iteration over the suit groups. -/
def isFlush (cards : List Card) : Option (List Card) :=
  match cards.find? (fun c => 5 ≤ (cards.filter (fun d => d.suit = c.suit)).length) with
  | some c => some ((cards.filter (fun d => d.suit = c.suit)).take 5)
  | none => none

/-- The streak loop of `isStraight`: walks the strictly descending
value list, extending the current streak when the next value is one
less than the streak's last element, and returns the streak's first
element once it reaches length five. -/
def straightScan : List Nat → List Nat → Option Nat
  | [], _ => none
  | v :: rest, streak =>
      let streak' := if streak = [] ∨ streak.getLast? = some (v + 1) then streak ++ [v] else [v]
      if streak'.length = 5 then streak'.head? else straightScan rest streak'

/-- The helper `isStraight` from `evaluateHand`: deduplicate the values, add a
low ace (value 1) when an ace is present, sort descending, and scan
for a run of five consecutive values, returning the run's top value. -/
def isStraight (cards : List Card) : Option Nat :=
  let uniq := setDedup (cards.map (fun c => c.value))
  let uniq := if uniq.contains 14 then uniq ++ [1] else uniq
  straightScan (sortNatDesc uniq) []

/-- Maximum of a list of rank values, the evaluator's
`Math.max(...)` (all call sites are guarded by non-emptiness, so the
default 0 is never observed). -/
def maxValue (l : List Nat) : Nat := l.foldr max 0

/-- Score component of `evaluateHand` from `poker.js` (the
`name` and `tieBreaker` fields are display-only and never compared by
the engine).  `keys` is the first-appearance order of ranks in the
descending-sorted card list, matching `Object.keys(counts)` insertion
order. -/
def evaluateHand (holeCards communityCards : List Card) : Nat :=
  let allCards := sortCardsDesc (holeCards ++ communityCards)
  match isFlush allCards with
  | some flushCards =>
      match isStraight flushCards with
      | some h => 900 + h
      | none => 600 + (flushCards.headD ⟨0, 0⟩).value
  | none =>
      let vals := allCards.map (fun c => c.value)
      let keys := setDedup vals
      let quads := keys.filter (fun k => vals.count k = 4)
      let trips := keys.filter (fun k => vals.count k = 3)
      let pairs := keys.filter (fun k => vals.count k = 2)
      if quads ≠ [] then 800 + quads.headD 0
      else if trips ≠ [] ∧ (2 ≤ trips.length ∨ pairs ≠ []) then 700 + maxValue trips
      else
        match isStraight allCards with
        | some h => 500 + h
        | none =>
            if trips ≠ [] then 400 + maxValue trips
            else if 2 ≤ pairs.length then 300 + (sortNatDesc pairs).headD 0
            else if pairs.length = 1 then 200 + pairs.headD 0
            else 100 + (allCards.headD ⟨0, 0⟩).value

/-! ## Table state machine and betting round engine (server module) -/

/-- Player status strings.  The code assigns `waiting`, `active`,
`folded`, `all-in`, `sitting-out` and `busted`; `ready` is additionally
tested by `startNextHandOrWait`. -/
inductive PStatus where
  | waiting | active | folded | allIn | sittingOut | busted | ready
deriving DecidableEq, Repr

/-- Room lifecycle status strings: `waiting`, `playing`, `showdown`. -/
inductive GStatus where
  | waiting | playing | showdown
deriving DecidableEq, Repr

/-- Betting street (`room.roundName`). -/
inductive Street where
  | preflop | flop | turn | river
deriving DecidableEq, Repr

/-- A seat occupant.  The display-only `nickname` field is omitted;
socket ids are modelled as naturals. -/
structure Player where
  id : Nat
  chips : Int
  seatIndex : Int
  status : PStatus
  hand : List Card
  currentBet : Int
  actedInRound : Bool
deriving DecidableEq, Repr

/-- One table (room).  Fields that the code only assigns lazily
(`roundName`, `highestBet`, ...) are always present here with their
current values; timer handles and the socket id are outside the
model. -/
structure Room where
  players : List Player
  gameStatus : GStatus
  minPlayers : Nat
  dealerIndex : Int
  sbIndex : Int
  bbIndex : Int
  currentTurnIndex : Int
  pot : Int
  highestBet : Int
  lastRaiseAmount : Int
  communityCards : List Card
  deck : List Card
  roundName : Street
deriving DecidableEq, Repr

def STARTING_CHIPS : Int := 200
def SMALL_BLIND : Int := 1
def BIG_BLIND : Int := 2

/-- Truthiness fallback `room.lastRaiseAmount || BIG_BLIND` (the only
falsy integer is 0). -/
def lastRaiseOr (room : Room) : Int :=
  if room.lastRaiseAmount = 0 then BIG_BLIND else room.lastRaiseAmount

/-- A player action.  The strings `bet` and `raise` share one code
branch and are a single constructor; a `parseInt` result of NaN is
`none`. -/
inductive PAction where
  | fold | check | call
  | raise (amount : Option Int)
  | allIn
deriving DecidableEq, Repr

/-- In-place mutation of the one player object the engine found by
identity: replace the first list entry with a matching id. -/
def updateFirst : List Player → Nat → (Player → Player) → List Player
  | [], _, _ => []
  | p :: rest, pid, f =>
      if p.id = pid then f p :: rest else p :: updateFirst rest pid f

/-- Dealing from the deck: `Deck.deal` pops from the end of the card
array. -/
def dealCard (deck : List Card) : Option Card × List Card :=
  (deck.getLast?, deck.dropLast)

/-- The chip-conservation quantity: all stacks plus all live bets plus
the pot. -/
def chipTotal (room : Room) : Int :=
  (room.players.map (fun p => p.chips + p.currentBet)).sum + room.pot

/-- Clearing `actedInRound` for every other still-active player after a
raise (re-opening the betting round). -/
def reopenBetting (ps : List Player) (actorId : Nat) : List Player :=
  ps.map (fun p =>
    if p.status = PStatus.active ∧ p.id ≠ actorId then { p with actedInRound := false } else p)

/-- The per-action mutation of `handlePlayerAction` (everything between
the turn guards and the final `actedInRound = true`), acting on the
player object the caller resolved.  All reads mirror the code's reads
of the same mutable player object. -/
def actionEffect (room : Room) (player : Player) (a : PAction) : Room :=
  let toCall := room.highestBet - player.currentBet
  match a with
  | PAction.fold =>
      { room with players := updateFirst room.players player.id
                    (fun p => { p with status := PStatus.folded }) }
  | PAction.check =>
      if 0 < toCall then
        { room with players := updateFirst room.players player.id
                      (fun p => { p with status := PStatus.folded }) }
      else room
  | PAction.call =>
      let contribution := min player.chips toCall
      { room with players := updateFirst room.players player.id (fun p =>
          let p' := { p with chips := p.chips - contribution,
                             currentBet := p.currentBet + contribution }
          if p'.chips = 0 then { p' with status := PStatus.allIn } else p') }
  | PAction.raise amount =>
      let raiseTotal := amount.getD (room.highestBet + BIG_BLIND)
      let minTotal := room.highestBet + lastRaiseOr room
      let raiseTotal :=
        if raiseTotal < minTotal ∧ raiseTotal < player.chips + player.currentBet then minTotal
        else raiseTotal
      let needed := raiseTotal - player.currentBet
      if player.chips < needed then
        let actualBet := player.chips + player.currentBet
        let r := { room with
          players := updateFirst room.players player.id (fun p =>
            { p with chips := 0, currentBet := p.chips + p.currentBet,
                     status := PStatus.allIn }),
          lastRaiseAmount :=
            if room.highestBet < actualBet then actualBet - room.highestBet
            else room.lastRaiseAmount,
          highestBet := if room.highestBet < actualBet then actualBet else room.highestBet }
        { r with players := reopenBetting r.players player.id }
      else
        let newBet := player.currentBet + needed
        let diff := newBet - room.highestBet
        let r := { room with
          players := updateFirst room.players player.id (fun p =>
            { p with chips := p.chips - needed, currentBet := p.currentBet + needed }),
          lastRaiseAmount := if 0 < diff then diff else room.lastRaiseAmount,
          highestBet := newBet }
        { r with players := reopenBetting r.players player.id }
  | PAction.allIn =>
      let total := player.chips + player.currentBet
      let r := { room with players := updateFirst room.players player.id (fun p =>
          { p with chips := 0, currentBet := p.chips + p.currentBet,
                   status := PStatus.allIn }) }
      if room.highestBet < total then
        let r' := { r with lastRaiseAmount := total - room.highestBet, highestBet := total }
        { r' with players := reopenBetting r'.players player.id }
      else r

/-- One player action as applied by `handlePlayerAction` after its
guards: the action's mutation followed by `player.actedInRound = true`. -/
def applyActionP (room : Room) (player : Player) (a : PAction) : Room :=
  let r := actionEffect room player a
  { r with players := updateFirst r.players player.id (fun p => { p with actedInRound := true }) }

/-- Outcome of `checkRoundEnd`'s branch structure. -/
inductive RoundDecision where
  | notPlaying | handEnds | streetAdvances | continues
deriving DecidableEq, Repr

/-- The branch logic of `checkRoundEnd` (its effects are executed by
`checkRoundEndF` below).  With Nat subtraction,
`totalInHand - foldedCount = 1` agrees with the code's test: whenever
the code's difference would be negative, ours is 0 and both differ
from 1. -/
def checkRoundEndDecision (room : Room) : RoundDecision :=
  if room.gameStatus ≠ GStatus.playing then RoundDecision.notPlaying
  else
    let activePlayers := room.players.filter (fun p =>
      decide (p.status = PStatus.active ∨ p.status = PStatus.allIn))
    let bettingPlayers := activePlayers.filter (fun p => decide (p.status = PStatus.active))
    let foldedCount := (room.players.filter (fun p => decide (p.status = PStatus.folded))).length
    let totalInHand := (room.players.filter (fun p => decide (0 < p.hand.length))).length
    if totalInHand - foldedCount = 1 then RoundDecision.handEnds
    else
      let pendingAction := bettingPlayers.any (fun p =>
        decide (p.actedInRound = false ∨ p.currentBet < room.highestBet))
      if pendingAction = false then RoundDecision.streetAdvances
      else RoundDecision.continues

/-- Candidate filter of `endHand`: not folded, not sitting out, was
dealt a hand. -/
def isCandidate (p : Player) : Bool :=
  decide (p.status ≠ PStatus.folded ∧ p.status ≠ PStatus.sittingOut ∧ 0 < p.hand.length)

/-- The chip distribution of `endHand`: a sole survivor takes the whole
pot; otherwise candidates are scored, sorted descending, and everyone
matching the top score receives `Math.floor(pot / winners.length)`.
The pot field itself is not cleared by `endHand` (that happens in
`startNextHandOrWait`). -/
def endHandPlayers (ps : List Player) (pot : Int) (cc : List Card) : List Player :=
  let candidates := ps.filter isCandidate
  if candidates.length = 1 then
    ps.map (fun p => if isCandidate p then { p with chips := p.chips + pot } else p)
  else
    let results := candidates.map (fun p => (p, evaluateHand p.hand cc))
    let sorted := List.insertionSort (fun a b => b.2 ≤ a.2) results
    match sorted.head? with
    | none => ps
    | some top =>
        let winners := sorted.filter (fun r => decide (r.2 = top.2))
        let split := Int.fdiv pot (winners.length : Int)
        ps.map (fun p =>
          if isCandidate p ∧ evaluateHand p.hand cc = top.2 then
            { p with chips := p.chips + split }
          else p)

/-- State change of `endHand` (socket emissions and the delayed
`startNextHandOrWait` callback are outside the model). -/
def endHandRoom (room : Room) : Room :=
  { room with gameStatus := GStatus.showdown,
              players := endHandPlayers room.players room.pot room.communityCards }

/-- The bet-gathering sweep at the top of `nextStreet`: every live bet
moves into the pot, bets and acted flags reset, `highestBet` returns to
0 and `lastRaiseAmount` to the big blind. -/
def sweepBets (room : Room) : Room :=
  { room with
    pot := room.pot + (room.players.map (fun p => p.currentBet)).sum,
    players := room.players.map (fun p => { p with currentBet := 0, actedInRound := false }),
    highestBet := 0,
    lastRaiseAmount := BIG_BLIND }

/-- The street dispatch of `nextStreet`: deal the next street's
community cards.  On the flop the code first pops one card as a
truthiness guard and then pops three more for the board.  A deal from
an exhausted deck (which in the code would push `undefined`; the spec
calls deck exhaustion an invariant violation) contributes nothing. -/
def dealNextStreet (room : Room) : Room :=
  match room.roundName with
  | Street.preflop =>
      let (c0, d0) := dealCard room.deck
      match c0 with
      | none => { room with roundName := Street.flop, communityCards := [], deck := d0 }
      | some _ =>
          let (c1, d1) := dealCard d0
          let (c2, d2) := dealCard d1
          let (c3, d3) := dealCard d2
          { room with roundName := Street.flop,
                      communityCards := c1.toList ++ c2.toList ++ c3.toList, deck := d3 }
  | Street.flop =>
      let (c, d) := dealCard room.deck
      { room with roundName := Street.turn,
                  communityCards := room.communityCards ++ c.toList, deck := d }
  | Street.turn =>
      let (c, d) := dealCard room.deck
      { room with roundName := Street.river,
                  communityCards := room.communityCards ++ c.toList, deck := d }
  | Street.river => room

/-- The `while (communityCards.length < 5)` auto-run-out loop; five
iterations always suffice since each one appends a card from a
non-exhausted deck. -/
def runOut : Nat → List Card × List Card → List Card × List Card
  | 0, s => s
  | n + 1, (cc, d) =>
      if cc.length < 5 then
        let (c, d') := dealCard d
        runOut n (cc ++ c.toList, d')
      else (cc, d)

/-- Auto-deal the remaining board when fewer than two players can still
act. -/
def runOutBoard (room : Room) : Room :=
  let s := runOut 5 (room.communityCards, room.deck)
  { room with communityCards := s.1, deck := s.2 }

/-- The seat scan of `nextTurn`: up to nine probes clockwise from the
given index for an occupied seat whose player is active with chips. -/
def scanNext (ps : List Player) : Nat → Int → Option Int
  | 0, _ => none
  | k + 1, idx =>
      match ps.find? (fun p => p.seatIndex == idx) with
      | some p =>
          if p.status = PStatus.active ∧ 0 < p.chips then some idx
          else scanNext ps k ((idx + 1) % 9)
      | none => scanNext ps k ((idx + 1) % 9)

mutual

/-- The function `nextTurn`: advance `currentTurnIndex` to the next
eligible seat, or fall through to the round-end check.  The fuel
argument bounds the street recursion (`nextTurn` → `checkRoundEnd` →
`nextStreet` → `nextTurn` advances the street each lap, so 5 always
suffices); fuel 0 is never reached from the entry points used here. -/
def nextTurnF : Nat → Room → Room
  | 0, room => room
  | fuel + 1, room =>
      if room.gameStatus ≠ GStatus.playing then room
      else
        match scanNext room.players 9 ((room.currentTurnIndex + 1) % 9) with
        | some idx => { room with currentTurnIndex := idx }
        | none => (checkRoundEndF fuel room).2

/-- The function `checkRoundEnd`: returns whether the round closed,
together with the room after any hand-end or street-advance effect. -/
def checkRoundEndF : Nat → Room → Bool × Room
  | 0, room => (true, room)
  | fuel + 1, room =>
      match checkRoundEndDecision room with
      | RoundDecision.notPlaying => (true, room)
      | RoundDecision.handEnds => (true, endHandRoom room)
      | RoundDecision.streetAdvances => (true, nextStreetF fuel room)
      | RoundDecision.continues => (false, room)

/-- The function `nextStreet`: sweep bets, then either end the hand on
the river, or deal the next street, reset the turn pointer to just
before the seat left of the dealer (the `-1` compensates the `+1` in
`nextTurn` and can transiently be `-1` itself), auto-run the board out
when fewer than two players can act, and otherwise pass the turn. -/
def nextStreetF : Nat → Room → Room
  | 0, room => room
  | fuel + 1, room =>
      let r := sweepBets room
      match r.roundName with
      | Street.river => endHandRoom r
      | _ =>
          let r2 := dealNextStreet r
          let r3 := { r2 with currentTurnIndex := (r2.dealerIndex + 1) % 9 - 1 }
          if (r3.players.filter (fun p => decide (p.status = PStatus.active))).length < 2 then
            endHandRoom (runOutBoard r3)
          else nextTurnF fuel r3

end

/-- The function `handlePlayerAction`, entered from the socket handler
that resolves the caller's player object by id: reject when not
playing or out of turn, otherwise apply the action and run the
round-end / turn-advance logic. -/
def handlePlayerAction (room : Room) (pid : Nat) (a : PAction) : Room :=
  match room.players.find? (fun p => p.id == pid) with
  | none => room
  | some player =>
      if room.gameStatus ≠ GStatus.playing then room
      else if player.seatIndex ≠ room.currentTurnIndex then room
      else
        let r := applyActionP room player a
        let res := checkRoundEndF 5 r
        if res.1 then res.2 else nextTurnF 5 res.2

/-! ## Hand start and quorum -/

/-- The dealer-button do/while loop of `startGame`: advance to the next
occupied seat, at most nine probes. -/
def rotateDealerLoop : Nat → List Player → Int → Int
  | 0, _, idx => idx
  | n + 1, ps, idx =>
      let idx' := (idx + 1) % 9
      if (ps.find? (fun p => p.seatIndex == idx')).isSome then idx'
      else rotateDealerLoop n ps idx'

/-- Eligibility for being dealt into a hand: positive chips and not
sitting out. -/
def inHandP (p : Player) : Bool :=
  decide (0 < p.chips ∧ p.status ≠ PStatus.sittingOut)

/-- The dealing forEach of `startGame`: each eligible player becomes
active and receives two cards popped from the deck, in list (join)
order. -/
def dealRound : List Player → List Card → List Player × List Card
  | [], d => ([], d)
  | p :: rest, d =>
      if inHandP p then
        let c1 := (dealCard d).1
        let d1 := (dealCard d).2
        let c2 := (dealCard d1).1
        let d2 := (dealCard d1).2
        let pr := dealRound rest d2
        ({ p with status := PStatus.active, hand := c1.toList ++ c2.toList,
                  currentBet := 0, actedInRound := false } :: pr.1, pr.2)
      else
        let pr := dealRound rest d
        (p :: pr.1, pr.2)

/-- The loop body of `getNextPlayer` in `startGame`: probe offsets 1..9
clockwise of `fromIndex` for an occupied seat. -/
def findFromSeat (ps : List Player) (fromIndex : Int) : List Int → Option Player
  | [] => none
  | i :: rest =>
      match ps.find? (fun p => p.seatIndex == (fromIndex + i) % 9) with
      | some p => some p
      | none => findFromSeat ps fromIndex rest

/-- Fallback player record for the (unreached) empty-list cases of
`playersInHand[0]`. -/
def defaultPlayer : Player :=
  { id := 0, chips := 0, seatIndex := 0, status := PStatus.waiting,
    hand := [], currentBet := 0, actedInRound := false }

/-- The `getNextPlayer` helper of `startGame`. -/
def getNextPlayer (ps : List Player) (fromIndex : Int) : Player :=
  (findFromSeat ps fromIndex [1, 2, 3, 4, 5, 6, 7, 8, 9]).getD (ps.headD defaultPlayer)

/-- Ascending seat sort (`playersInHand.sort((a, b) => a.seatIndex -
b.seatIndex)`). -/
def sortBySeat (ps : List Player) : List Player :=
  List.insertionSort (fun a b => a.seatIndex ≤ b.seatIndex) ps

/-- Posting a blind: the forced bet is subtracted from the stack and
becomes the player's current bet. -/
def postBlind (ps : List Player) (pid : Nat) (amt : Int) : List Player :=
  updateFirst ps pid (fun p => { p with chips := p.chips - amt, currentBet := amt })

/-- The function `startGame`.  The freshly shuffled `new Deck()` is
passed in as `freshDeck`.  Mirrors the code: enter `playing`, rotate
the dealer button, abort back to `waiting` when fewer than two players
can be dealt in, deal, choose small/big blind and first actor via
`getNextPlayer`, post the blinds capped by available chips, and give
the turn to the seat left of the big blind. -/
def startGame (freshDeck : List Card) (room : Room) : Room :=
  let r0 := { room with gameStatus := GStatus.playing, deck := freshDeck, pot := 0,
                        communityCards := [], highestBet := 0, roundName := Street.preflop }
  let r1 := { r0 with dealerIndex := rotateDealerLoop 9 r0.players r0.dealerIndex }
  if (r1.players.filter inHandP).length < 2 then
    { r1 with gameStatus := GStatus.waiting }
  else
    let pd := dealRound r1.players r1.deck
    let r2 := { r1 with players := pd.1, deck := pd.2 }
    let playersInHand := sortBySeat (r2.players.filter inHandP)
    let dealer := (playersInHand.find? (fun p => p.seatIndex == r2.dealerIndex)).getD
        (playersInHand.headD defaultPlayer)
    let sbPlayer := getNextPlayer playersInHand dealer.seatIndex
    let bbPlayer :=
      if playersInHand.length = 2 then dealer
      else getNextPlayer playersInHand sbPlayer.seatIndex
    let r3 := { r2 with sbIndex := sbPlayer.seatIndex, bbIndex := bbPlayer.seatIndex }
    let sbAmt := min sbPlayer.chips SMALL_BLIND
    let r4 := { r3 with players := postBlind r3.players sbPlayer.id sbAmt }
    let bbCur := (r4.players.find? (fun p => p.id == bbPlayer.id)).getD bbPlayer
    let bbAmt := min bbCur.chips BIG_BLIND
    let r5 := { r4 with players := postBlind r4.players bbPlayer.id bbAmt }
    let r6 := { r5 with highestBet := BIG_BLIND, lastRaiseAmount := BIG_BLIND }
    let utg := getNextPlayer playersInHand bbPlayer.seatIndex
    { r6 with currentTurnIndex := utg.seatIndex }

/-- The hand-reset prefix of `startNextHandOrWait`: clear hands, bets
and acted flags, demote non-sitting-out players to `waiting` or
`busted` by stack, clear pot and board, return to `waiting`. -/
def resetForNextHand (room : Room) : Room :=
  { room with
    players := room.players.map (fun p =>
      let p' := { p with hand := ([] : List Card), currentBet := 0, actedInRound := false }
      if p'.status ≠ PStatus.sittingOut then
        { p' with status := if 0 < p'.chips then PStatus.waiting else PStatus.busted }
      else p'),
    pot := 0, communityCards := [], gameStatus := GStatus.waiting }

/-- The function `startNextHandOrWait` (the delayed post-showdown
transition): reset, then start the next hand when at least
`minPlayers` ready players hold chips. -/
def startNextHandOrWait (freshDeck : List Card) (room : Room) : Room :=
  let r := resetForNextHand room
  let readyPlayers := r.players.filter (fun p =>
    decide (p.status = PStatus.waiting ∨ p.status = PStatus.active ∨ p.status = PStatus.ready))
  let playersWithChips := readyPlayers.filter (fun p => decide (0 < p.chips))
  if r.minPlayers ≤ playersWithChips.length then startGame freshDeck r else r

/-- The `startGameRequest` socket handler: reject when not `waiting` or
when fewer than `minPlayers` players are seated (regardless of their
chip counts), otherwise run `startGame`. -/
def startGameRequest (freshDeck : List Card) (room : Room) : Room :=
  if room.gameStatus ≠ GStatus.waiting then room
  else if room.players.length < room.minPlayers then room
  else startGame freshDeck room

/-! ## General lemmas about the list-mutation helpers -/

theorem updateFirst_map_of {α : Type} (g : Player → α) (f : Player → Player) (pid : Nat)
    (hf : ∀ p, g (f p) = g p) :
    ∀ ps : List Player, (updateFirst ps pid f).map g = ps.map g := by
  intro ps
  induction ps with
  | nil => rfl
  | cons p rest ih =>
      unfold updateFirst
      by_cases h : p.id = pid
      · simp [h, hf]
      · simp [h, ih]

theorem map_map_of {α : Type} (g : Player → α) (h : Player → Player)
    (hh : ∀ p, g (h p) = g p) (ps : List Player) :
    (ps.map h).map g = ps.map g := by
  rw [List.map_map]
  exact List.map_congr_left (fun p _ => hh p)

theorem sum_map_int_add (f g : Player → Int) (ps : List Player) :
    (ps.map (fun p => f p + g p)).sum = (ps.map f).sum + (ps.map g).sum := by
  induction ps with
  | nil => simp
  | cons p rest ih =>
      simp [ih]
      ring

/-- Projection-level equality implies equal chip totals. -/
theorem chipTotal_eq_of (r1 r2 : Room) (hpot : r1.pot = r2.pot)
    (hsum : (r1.players.map (fun p => p.chips + p.currentBet)).sum =
            (r2.players.map (fun p => p.chips + p.currentBet)).sum) :
    chipTotal r1 = chipTotal r2 := by
  unfold chipTotal
  rw [hpot, hsum]

/-- Every branch of the per-action mutation moves chips between a
player's stack and that player's current bet, or moves nothing. -/
theorem actionEffect_chipTotal (room : Room) (player : Player) (a : PAction) :
    chipTotal (actionEffect room player a) = chipTotal room := by
  have hre : ∀ pid ps, ((reopenBetting ps pid).map (fun p => p.chips + p.currentBet)).sum =
      (ps.map (fun p => p.chips + p.currentBet)).sum := by
    intro pid ps
    refine congrArg List.sum (map_map_of _ _ ?_ ps)
    intro p
    dsimp only
    split <;> rfl
  cases a with
  | fold =>
      simp only [actionEffect, chipTotal]
      congr 1
      refine congrArg List.sum ?_
      refine updateFirst_map_of _ _ _ (fun p => ?_) _
      rfl
  | check =>
      simp only [actionEffect]
      split
      · simp only [chipTotal]
        congr 1
        refine congrArg List.sum ?_
        refine updateFirst_map_of _ _ _ (fun p => ?_) _
        rfl
      · rfl
  | call =>
      simp only [actionEffect, chipTotal]
      congr 1
      refine congrArg List.sum ?_
      refine updateFirst_map_of _ _ _ (fun p => ?_) _
      dsimp only
      split <;> (dsimp only; ring)
  | raise amount =>
      simp only [actionEffect]
      split <;> split <;>
        · simp only [chipTotal]
          rw [hre]
          congr 1
          refine congrArg List.sum ?_
          refine updateFirst_map_of _ _ _ (fun p => ?_) _
          dsimp only
          ring
  | allIn =>
      simp only [actionEffect]
      split
      · simp only [chipTotal]
        rw [hre]
        congr 1
        refine congrArg List.sum ?_
        refine updateFirst_map_of _ _ _ (fun p => ?_) _
        dsimp only
        ring
      · simp only [chipTotal]
        congr 1
        refine congrArg List.sum ?_
        refine updateFirst_map_of _ _ _ (fun p => ?_) _
        dsimp only
        ring

theorem applyActionP_chipTotal (room : Room) (player : Player) (a : PAction) :
    chipTotal (applyActionP room player a) = chipTotal room := by
  have h1 : chipTotal (applyActionP room player a) = chipTotal (actionEffect room player a) := by
    simp only [applyActionP, chipTotal]
    congr 1
    refine congrArg List.sum ?_
    refine updateFirst_map_of _ _ _ (fun p => ?_) _
    rfl
  rw [h1, actionEffect_chipTotal]

theorem sweepBets_chipTotal (room : Room) :
    chipTotal (sweepBets room) = chipTotal room := by
  simp only [sweepBets, chipTotal]
  have h1 : ∀ ps : List Player, (List.map (fun p => p.chips + p.currentBet)
      (List.map (fun p => { p with currentBet := 0, actedInRound := false }) ps)).sum =
      (List.map (fun p : Player => p.chips) ps).sum := by
    intro ps
    induction ps with
    | nil => rfl
    | cons p rest ih =>
        simp only [List.map_cons, List.sum_cons]
        rw [ih]
        ring
  rw [h1, sum_map_int_add (fun p => p.chips) (fun p => p.currentBet) room.players]
  ring

/-! ## Claim theorems -/

/-- C1: For every single player action (fold, check, call, bet/raise,
all-in) applied by `handlePlayerAction`'s action step, and for the
street-advancement sweep in `nextStreet`, the quantity
sum of chips + pot + sum of current bets is unchanged (blinds likewise
only move chips into `currentBet`, staying inside the sum). -/
theorem chip_conservation (room : Room) (player : Player) (a : PAction) :
    chipTotal (applyActionP room player a) = chipTotal room ∧
    chipTotal (sweepBets room) = chipTotal room :=
  ⟨applyActionP_chipTotal room player a, sweepBets_chipTotal room⟩

/-- C7: Hole cards A spade and 2 diamond with community 3 club,
4 heart, 5 spade, 9 diamond, K club evaluate as the wheel straight,
scoring in the straight tier at 500 plus the straight's high value 5,
not as a high-card-Ace hand. -/
theorem ace_low_wheel_straight :
    evaluateHand [⟨14, 0⟩, ⟨2, 2⟩] [⟨3, 3⟩, ⟨4, 1⟩, ⟨5, 0⟩, ⟨9, 2⟩, ⟨13, 3⟩] = 500 + 5 := by
  decide

/-- C5: An action submitted while the table is not in the `playing`
phase, or by a player whose seat is not the current turn, leaves the
room exactly unchanged. -/
theorem out_of_turn_rejection (room : Room) (pid : Nat) (a : PAction) (p : Player)
    (hfind : room.players.find? (fun q => q.id == pid) = some p)
    (h : room.gameStatus ≠ GStatus.playing ∨ p.seatIndex ≠ room.currentTurnIndex) :
    handlePlayerAction room pid a = room := by
  unfold handlePlayerAction
  rw [hfind]
  dsimp only
  rcases h with h | h
  · rw [if_pos h]
  · by_cases hg : room.gameStatus ≠ GStatus.playing
    · rw [if_pos hg]
    · rw [if_neg hg, if_pos h]

def pC5 : Player :=
  { id := 7, chips := 200, seatIndex := 0, status := PStatus.waiting, hand := [],
    currentBet := 0, actedInRound := false }

def roomC5 : Room :=
  { players := [pC5], gameStatus := GStatus.waiting, minPlayers := 5, dealerIndex := 0,
    sbIndex := 0, bbIndex := 0, currentTurnIndex := 0, pot := 0, highestBet := 0,
    lastRaiseAmount := 0, communityCards := [], deck := [], roundName := Street.preflop }

theorem out_of_turn_rejection_witness :
    roomC5.players.find? (fun q => q.id == 7) = some pC5 ∧
    roomC5.gameStatus ≠ GStatus.playing ∧
    handlePlayerAction roomC5 7 PAction.fold = roomC5 :=
  ⟨by decide, by decide,
   out_of_turn_rejection roomC5 7 PAction.fold pC5 (by decide) (Or.inl (by decide))⟩


/-- C10: The preflop-to-flop transition removes four cards from the
deck (one consumed by the truthiness guard plus the three flop cards)
and leaves exactly three community cards; the turn and river
transitions each remove exactly one card (and add it to the board). -/
theorem street_card_counts (room : Room) :
    (room.roundName = Street.preflop → 4 ≤ room.deck.length →
       (dealNextStreet room).deck.length + 4 = room.deck.length ∧
       (dealNextStreet room).communityCards.length = 3 ∧
       (dealNextStreet room).roundName = Street.flop) ∧
    (room.roundName = Street.flop → room.deck ≠ [] →
       (dealNextStreet room).deck.length + 1 = room.deck.length ∧
       (dealNextStreet room).communityCards.length = room.communityCards.length + 1 ∧
       (dealNextStreet room).roundName = Street.turn) ∧
    (room.roundName = Street.turn → room.deck ≠ [] →
       (dealNextStreet room).deck.length + 1 = room.deck.length ∧
       (dealNextStreet room).communityCards.length = room.communityCards.length + 1 ∧
       (dealNextStreet room).roundName = Street.river) := by
  have hsome : ∀ d : List Card, d ≠ [] → ∃ c, d.getLast? = some c := by
    intro d hd
    exact Option.isSome_iff_exists.mp (List.getLast?_isSome.mpr hd)
  refine ⟨?_, ?_, ?_⟩
  · intro hrn hlen
    have h0 : room.deck ≠ [] := by
      intro h
      rw [h] at hlen
      simp at hlen
    obtain ⟨c0, hc0⟩ := hsome _ h0
    have l0 : room.deck.dropLast.length = room.deck.length - 1 := List.length_dropLast _
    have h1 : room.deck.dropLast ≠ [] := by
      refine List.ne_nil_of_length_pos ?_
      omega
    obtain ⟨c1, hc1⟩ := hsome _ h1
    have l1 : room.deck.dropLast.dropLast.length = room.deck.dropLast.length - 1 :=
      List.length_dropLast _
    have h2 : room.deck.dropLast.dropLast ≠ [] := by
      refine List.ne_nil_of_length_pos ?_
      omega
    obtain ⟨c2, hc2⟩ := hsome _ h2
    have l2 : room.deck.dropLast.dropLast.dropLast.length =
        room.deck.dropLast.dropLast.length - 1 := List.length_dropLast _
    have h3 : room.deck.dropLast.dropLast.dropLast ≠ [] := by
      refine List.ne_nil_of_length_pos ?_
      omega
    obtain ⟨c3, hc3⟩ := hsome _ h3
    have l3 : room.deck.dropLast.dropLast.dropLast.dropLast.length =
        room.deck.dropLast.dropLast.dropLast.length - 1 := List.length_dropLast _
    simp only [dealNextStreet, dealCard, hrn, hc0, hc1, hc2, hc3]
    refine ⟨by omega, by simp, by trivial⟩
  · intro hrn hd
    simp only [dealNextStreet, dealCard, hrn]
    obtain ⟨c, hc⟩ := hsome _ hd
    have l0 : room.deck.dropLast.length = room.deck.length - 1 := List.length_dropLast _
    have hlen : 0 < room.deck.length := List.length_pos.mpr hd
    rw [hc]
    refine ⟨by omega, by simp, by trivial⟩
  · intro hrn hd
    simp only [dealNextStreet, dealCard, hrn]
    obtain ⟨c, hc⟩ := hsome _ hd
    have l0 : room.deck.dropLast.length = room.deck.length - 1 := List.length_dropLast _
    have hlen : 0 < room.deck.length := List.length_pos.mpr hd
    rw [hc]
    refine ⟨by omega, by simp, by trivial⟩

def roomC10 : Room :=
  { players := [], gameStatus := GStatus.playing, minPlayers := 5, dealerIndex := 0,
    sbIndex := 0, bbIndex := 0, currentTurnIndex := 0, pot := 0, highestBet := 0,
    lastRaiseAmount := 2, communityCards := [],
    deck := [⟨2, 0⟩, ⟨3, 0⟩, ⟨4, 0⟩, ⟨5, 0⟩], roundName := Street.preflop }

theorem street_card_counts_witness :
    (roomC10.roundName = Street.preflop ∧ 4 ≤ roomC10.deck.length) ∧
    ((dealNextStreet roomC10).deck.length + 4 = roomC10.deck.length ∧
     (dealNextStreet roomC10).communityCards.length = 3 ∧
     (dealNextStreet roomC10).roundName = Street.flop) :=
  ⟨⟨by decide, by decide⟩, (street_card_counts roomC10).1 (by decide) (by decide)⟩


/-- C4: After an action (state still `playing`, more than one un-folded
hand remaining, and no bet exceeding `highestBet`, as the engine
maintains), the round-end check advances to the next street exactly
when every still-active (not folded, not all-in) player has
`actedInRound` and matches the highest bet; otherwise it continues the
betting round. -/
theorem round_closure (room : Room)
    (hplay : room.gameStatus = GStatus.playing)
    (hmulti : (room.players.filter (fun p => decide (p.status = PStatus.folded))).length + 2 ≤
              (room.players.filter (fun p => decide (0 < p.hand.length))).length)
    (hbets : ∀ p ∈ room.players, p.currentBet ≤ room.highestBet) :
    checkRoundEndDecision room = RoundDecision.streetAdvances ↔
      ∀ p ∈ room.players, p.status = PStatus.active →
        p.actedInRound = true ∧ p.currentBet = room.highestBet := by
  simp only [checkRoundEndDecision]
  rw [if_neg (by simp [hplay])]
  rw [if_neg (by omega)]
  have hsplit : ∀ b : Bool, ((if b = false then RoundDecision.streetAdvances
      else RoundDecision.continues) = RoundDecision.streetAdvances ↔ b = false) := by
    intro b
    cases b <;> simp
  rw [hsplit, List.any_eq_false]
  constructor
  · intro h p hp hact
    have hmem : p ∈ (room.players.filter (fun p =>
        decide (p.status = PStatus.active ∨ p.status = PStatus.allIn))).filter
        (fun p => decide (p.status = PStatus.active)) := by
      rw [List.mem_filter, List.mem_filter]
      refine ⟨⟨hp, by simp [hact]⟩, by simp [hact]⟩
    have hph := h p hmem
    simp only [decide_eq_true_eq, not_or, not_lt] at hph
    obtain ⟨h1, h2⟩ := hph
    refine ⟨by simpa using h1, le_antisymm (hbets p hp) h2⟩
  · intro h p hmem
    rw [List.mem_filter, List.mem_filter] at hmem
    obtain ⟨⟨hp, _⟩, hact⟩ := hmem
    simp only [decide_eq_true_eq] at hact
    obtain ⟨h1, h2⟩ := h p hp hact
    simp [h1, h2]

def roomC4 : Room :=
  { players :=
      [{ id := 1, chips := 100, seatIndex := 0, status := PStatus.active,
         hand := [⟨2, 0⟩, ⟨3, 0⟩], currentBet := 2, actedInRound := true },
       { id := 2, chips := 100, seatIndex := 1, status := PStatus.active,
         hand := [⟨4, 0⟩, ⟨5, 0⟩], currentBet := 2, actedInRound := true }],
    gameStatus := GStatus.playing, minPlayers := 5, dealerIndex := 0,
    sbIndex := 0, bbIndex := 1, currentTurnIndex := 1, pot := 0, highestBet := 2,
    lastRaiseAmount := 2, communityCards := [], deck := [], roundName := Street.preflop }

theorem round_closure_witness :
    (roomC4.gameStatus = GStatus.playing ∧
     (roomC4.players.filter (fun p => decide (p.status = PStatus.folded))).length + 2 ≤
       (roomC4.players.filter (fun p => decide (0 < p.hand.length))).length ∧
     (∀ p ∈ roomC4.players, p.currentBet ≤ roomC4.highestBet)) ∧
    (checkRoundEndDecision roomC4 = RoundDecision.streetAdvances ↔
      ∀ p ∈ roomC4.players, p.status = PStatus.active →
        p.actedInRound = true ∧ p.currentBet = roomC4.highestBet) :=
  ⟨⟨by decide, by decide, by decide⟩,
   round_closure roomC4 (by decide) (by decide) (by decide)⟩


/-- Updating the first id-match moves `find?` for that id to the
updated record, for id-preserving updates. -/
theorem find?_updateFirst (f : Player → Player) (pid : Nat) (p : Player)
    (hid : ∀ q, (f q).id = q.id) :
    ∀ ps : List Player, ps.find? (fun q => q.id == pid) = some p →
      (updateFirst ps pid f).find? (fun q => q.id == pid) = some (f p) := by
  intro ps
  induction ps with
  | nil => intro h; simp at h
  | cons q rest ih =>
      intro hfind
      by_cases h : q.id = pid
      · rw [List.find?_cons_of_pos _ (by simp [h])] at hfind
        injection hfind with hq
        subst hq
        unfold updateFirst
        rw [if_pos h]
        exact List.find?_cons_of_pos _ (by simp [hid, h])
      · rw [List.find?_cons_of_neg _ (by simp [h])] at hfind
        unfold updateFirst
        rw [if_neg h]
        rw [List.find?_cons_of_neg _ (by simp [h])]
        exact ih hfind

/-- C6: A `check` submitted while a call is owed folds the acting
player without rejecting the action and without moving any chips
(stacks, bets, pot and the highest bet are untouched); a `check` with
nothing owed leaves chips, bets, pot and every status unchanged. -/
theorem check_semantics (room : Room) (player : Player)
    (hfind : room.players.find? (fun q => q.id == player.id) = some player) :
    (applyActionP room player PAction.check).pot = room.pot ∧
    (applyActionP room player PAction.check).highestBet = room.highestBet ∧
    (applyActionP room player PAction.check).players.map (fun q => (q.chips, q.currentBet)) =
      room.players.map (fun q => (q.chips, q.currentBet)) ∧
    (0 < room.highestBet - player.currentBet →
       ∃ q ∈ (applyActionP room player PAction.check).players,
         q.id = player.id ∧ q.status = PStatus.folded) ∧
    (room.highestBet - player.currentBet ≤ 0 →
       (applyActionP room player PAction.check).players.map (fun q => q.status) =
         room.players.map (fun q => q.status)) := by
  refine ⟨?_, ?_, ?_, ?_, ?_⟩
  · simp only [applyActionP, actionEffect]
    split <;> rfl
  · simp only [applyActionP, actionEffect]
    split <;> rfl
  · simp only [applyActionP, actionEffect]
    split
    · refine Eq.trans (updateFirst_map_of _ _ _ (fun q => ?_) _) ?_
      · rfl
      · refine updateFirst_map_of _ _ _ (fun q => ?_) _
        rfl
    · refine updateFirst_map_of _ _ _ (fun q => ?_) _
      rfl
  · intro h
    simp only [applyActionP, actionEffect]
    rw [if_pos h]
    have h1 := find?_updateFirst (fun q => { q with status := PStatus.folded })
      player.id player (fun q => rfl) room.players hfind
    have h2 := find?_updateFirst (fun q => { q with actedInRound := true })
      player.id _ (fun q => rfl) _ h1
    refine ⟨_, List.mem_of_find?_eq_some h2, ?_, rfl⟩
    rfl
  · intro h
    simp only [applyActionP, actionEffect]
    rw [if_neg (not_lt.mpr h)]
    refine updateFirst_map_of _ _ _ (fun q => ?_) _
    rfl

def pC6 : Player :=
  { id := 3, chips := 50, seatIndex := 2, status := PStatus.active, hand := [⟨7, 1⟩, ⟨8, 1⟩],
    currentBet := 0, actedInRound := false }

def roomC6 : Room :=
  { players := [pC6], gameStatus := GStatus.playing, minPlayers := 5, dealerIndex := 0,
    sbIndex := 0, bbIndex := 1, currentTurnIndex := 2, pot := 3, highestBet := 2,
    lastRaiseAmount := 2, communityCards := [], deck := [], roundName := Street.preflop }

theorem check_semantics_witness :
    roomC6.players.find? (fun q => q.id == pC6.id) = some pC6 ∧
    ((applyActionP roomC6 pC6 PAction.check).pot = roomC6.pot ∧
     (applyActionP roomC6 pC6 PAction.check).highestBet = roomC6.highestBet ∧
     (applyActionP roomC6 pC6 PAction.check).players.map (fun q => (q.chips, q.currentBet)) =
       roomC6.players.map (fun q => (q.chips, q.currentBet)) ∧
     (0 < roomC6.highestBet - pC6.currentBet →
        ∃ q ∈ (applyActionP roomC6 pC6 PAction.check).players,
          q.id = pC6.id ∧ q.status = PStatus.folded) ∧
     (roomC6.highestBet - pC6.currentBet ≤ 0 →
        (applyActionP roomC6 pC6 PAction.check).players.map (fun q => q.status) =
          roomC6.players.map (fun q => q.status))) :=
  ⟨by decide, check_semantics roomC6 pC6 (by decide)⟩


/-! ## C2: turn legality -/

theorem scanNext_sound (ps : List Player) :
    ∀ (k : Nat) (start idx : Int), scanNext ps k start = some idx →
      ∃ p ∈ ps, p.seatIndex = idx ∧ p.status = PStatus.active ∧ 0 < p.chips := by
  intro k
  induction k with
  | zero =>
      intro start idx h
      simp [scanNext] at h
  | succ n ih =>
      intro start idx h
      unfold scanNext at h
      cases hf : ps.find? (fun p => p.seatIndex == start) with
      | none =>
          rw [hf] at h
          exact ih _ _ h
      | some p =>
          rw [hf] at h
          dsimp only at h
          split at h
          next hcond =>
            injection h with h'
            subst h'
            refine ⟨p, List.mem_of_find?_eq_some hf, ?_, hcond.1, hcond.2⟩
            have := List.find?_some hf
            simpa using this
          next hcond =>
            exact ih _ _ h

theorem nextTurn_sets (room : Room) (idx : Int) (fuel : Nat)
    (hplay : room.gameStatus = GStatus.playing)
    (hscan : scanNext room.players 9 ((room.currentTurnIndex + 1) % 9) = some idx) :
    (nextTurnF (fuel + 1) room).currentTurnIndex = idx := by
  unfold nextTurnF
  rw [if_neg (by simp [hplay]), hscan]

theorem dealRound_filter_length : ∀ (ps : List Player) (d : List Card),
    ((dealRound ps d).1.filter inHandP).length = (ps.filter inHandP).length := by
  intro ps
  induction ps with
  | nil => intro d; rfl
  | cons p rest ih =>
      intro d
      by_cases hp : inHandP p = true
      · have hnew : ∀ h : List Card, inHandP
            { p with status := PStatus.active, hand := h, currentBet := 0,
                     actedInRound := false } = true := by
          intro h
          simp only [inHandP, decide_eq_true_eq] at hp ⊢
          exact ⟨hp.1, by simp⟩
        simp only [dealRound, if_pos hp, List.filter_cons, hnew, hp, if_true]
        simp [ih]
      · simp only [dealRound, if_neg hp, List.filter_cons]
        exact ih _

theorem dealRound_active : ∀ (ps : List Player) (d : List Card) (q : Player),
    q ∈ (dealRound ps d).1 → inHandP q = true → q.status = PStatus.active := by
  intro ps
  induction ps with
  | nil =>
      intro d q hq
      simp [dealRound] at hq
  | cons p rest ih =>
      intro d q hq hin
      by_cases hp : inHandP p = true
      · simp only [dealRound, if_pos hp] at hq
        rcases List.mem_cons.mp hq with h | h
        · rw [h]
        · exact ih _ _ h hin
      · simp only [dealRound, if_neg hp] at hq
        rcases List.mem_cons.mp hq with h | h
        · rw [h] at hin
          exact absurd hin (by simpa using hp)
        · exact ih _ _ h hin

theorem findFromSeat_mem : ∀ (l : List Int) (ps : List Player) (fi : Int) (p : Player),
    findFromSeat ps fi l = some p → p ∈ ps := by
  intro l
  induction l with
  | nil =>
      intro ps fi p h
      simp [findFromSeat] at h
  | cons i rest ih =>
      intro ps fi p h
      unfold findFromSeat at h
      cases hf : ps.find? (fun q => q.seatIndex == (fi + i) % 9) with
      | none =>
          rw [hf] at h
          exact ih _ _ _ h
      | some q =>
          rw [hf] at h
          injection h with h'
          subst h'
          exact List.mem_of_find?_eq_some hf

theorem getNextPlayer_mem (ps : List Player) (fi : Int) (hps : ps ≠ []) :
    getNextPlayer ps fi ∈ ps := by
  unfold getNextPlayer
  cases hf : findFromSeat ps fi [1, 2, 3, 4, 5, 6, 7, 8, 9] with
  | some p =>
      simpa [hf] using findFromSeat_mem _ _ _ _ hf
  | none =>
      cases ps with
      | nil => exact absurd rfl hps
      | cons a t => simp [hf]

theorem sortBySeat_mem (ps : List Player) (p : Player) : p ∈ sortBySeat ps ↔ p ∈ ps :=
  (List.perm_insertionSort _ ps).mem_iff

theorem postBlind_seat_status (ps : List Player) (pid : Nat) (amt : Int) :
    (postBlind ps pid amt).map (fun q => (q.seatIndex, q.status)) =
      ps.map (fun q => (q.seatIndex, q.status)) := by
  refine updateFirst_map_of _ _ _ (fun q => ?_) _
  rfl

theorem exists_seat_active_postBlind (ps1 : List Player) (x z : Nat) (y w : Int) (u : Player)
    (hu : u ∈ ps1) (hact : u.status = PStatus.active) :
    ∃ p ∈ postBlind (postBlind ps1 x y) z w,
      p.seatIndex = u.seatIndex ∧ p.status = PStatus.active := by
  have hmap : (postBlind (postBlind ps1 x y) z w).map (fun q => (q.seatIndex, q.status)) =
      ps1.map (fun q => (q.seatIndex, q.status)) := by
    rw [postBlind_seat_status, postBlind_seat_status]
  have hin : (u.seatIndex, PStatus.active) ∈ ps1.map (fun q => (q.seatIndex, q.status)) := by
    refine List.mem_map.mpr ⟨u, hu, ?_⟩
    rw [hact]
  rw [← hmap] at hin
  obtain ⟨p, hp, hpe⟩ := List.mem_map.mp hin
  refine ⟨p, hp, ?_, ?_⟩
  · exact congrArg Prod.fst hpe
  · exact congrArg Prod.snd hpe

theorem startGame_turn_active (d : List Card) (room : Room)
    (h2 : 2 ≤ (room.players.filter inHandP).length) :
    ∃ p ∈ (startGame d room).players,
      p.seatIndex = (startGame d room).currentTurnIndex ∧ p.status = PStatus.active := by
  simp only [startGame]
  rw [if_neg (by omega)]
  dsimp only
  have hlen : (((dealRound room.players d).1.filter inHandP)).length =
      (room.players.filter inHandP).length :=
    dealRound_filter_length room.players d
  have hne : sortBySeat ((dealRound room.players d).1.filter inHandP) ≠ [] := by
    have hl : (sortBySeat ((dealRound room.players d).1.filter inHandP)).length =
        ((dealRound room.players d).1.filter inHandP).length :=
      (List.perm_insertionSort _ _).length_eq
    intro hnil
    rw [hnil] at hl
    simp at hl
    omega
  refine exists_seat_active_postBlind _ _ _ _ _ _ ?_ ?_
  · have hm := getNextPlayer_mem _ ((if (sortBySeat ((dealRound room.players d).1.filter inHandP)).length = 2 then
        ((sortBySeat ((dealRound room.players d).1.filter inHandP)).find? (fun p =>
          p.seatIndex == rotateDealerLoop 9 room.players room.dealerIndex)).getD
          ((sortBySeat ((dealRound room.players d).1.filter inHandP)).headD defaultPlayer)
      else getNextPlayer (sortBySeat ((dealRound room.players d).1.filter inHandP))
        (getNextPlayer (sortBySeat ((dealRound room.players d).1.filter inHandP))
          (((sortBySeat ((dealRound room.players d).1.filter inHandP)).find? (fun p =>
            p.seatIndex == rotateDealerLoop 9 room.players room.dealerIndex)).getD
            ((sortBySeat ((dealRound room.players d).1.filter inHandP)).headD
              defaultPlayer)).seatIndex).seatIndex).seatIndex) hne
    have := (sortBySeat_mem _ _).mp hm
    exact (List.mem_filter.mp this).1
  · have hm := getNextPlayer_mem _ ((if (sortBySeat ((dealRound room.players d).1.filter inHandP)).length = 2 then
        ((sortBySeat ((dealRound room.players d).1.filter inHandP)).find? (fun p =>
          p.seatIndex == rotateDealerLoop 9 room.players room.dealerIndex)).getD
          ((sortBySeat ((dealRound room.players d).1.filter inHandP)).headD defaultPlayer)
      else getNextPlayer (sortBySeat ((dealRound room.players d).1.filter inHandP))
        (getNextPlayer (sortBySeat ((dealRound room.players d).1.filter inHandP))
          (((sortBySeat ((dealRound room.players d).1.filter inHandP)).find? (fun p =>
            p.seatIndex == rotateDealerLoop 9 room.players room.dealerIndex)).getD
            ((sortBySeat ((dealRound room.players d).1.filter inHandP)).headD
              defaultPlayer)).seatIndex).seatIndex).seatIndex) hne
    have hmem := (sortBySeat_mem _ _).mp hm
    exact dealRound_active room.players d _ (List.mem_filter.mp hmem).1
      (List.mem_filter.mp hmem).2

/-- C2 (amended): Whenever the `nextTurn` scan finds an eligible seat
while `playing`, the updated `currentTurnIndex` names a seat occupied
by an active player with positive chips; the first actor chosen by
`startGame` occupies their seat and is active, but — as the
counterexample shows — may hold zero chips when posting a blind
consumed the whole stack, so only occupancy and activeness hold
there. -/
theorem turn_legality :
    (∀ (room : Room) (idx : Int) (fuel : Nat),
       room.gameStatus = GStatus.playing →
       scanNext room.players 9 ((room.currentTurnIndex + 1) % 9) = some idx →
       (nextTurnF (fuel + 1) room).currentTurnIndex = idx ∧
       ∃ p ∈ room.players, p.seatIndex = idx ∧ p.status = PStatus.active ∧ 0 < p.chips) ∧
    (∀ (d : List Card) (room : Room),
       2 ≤ (room.players.filter inHandP).length →
       ∃ p ∈ (startGame d room).players,
         p.seatIndex = (startGame d room).currentTurnIndex ∧ p.status = PStatus.active) :=
  ⟨fun room idx fuel hplay hscan =>
     ⟨nextTurn_sets room idx fuel hplay hscan, scanNext_sound room.players 9 _ idx hscan⟩,
   fun d room h2 => startGame_turn_active d room h2⟩

/-- Waiting room with five seated players of whom three are busted:
the small blind holds a single chip. -/
def roomC2 : Room :=
  { players :=
      [{ id := 0, chips := 1, seatIndex := 0, status := PStatus.waiting, hand := [],
         currentBet := 0, actedInRound := false },
       { id := 1, chips := 200, seatIndex := 1, status := PStatus.waiting, hand := [],
         currentBet := 0, actedInRound := false },
       { id := 2, chips := 0, seatIndex := 2, status := PStatus.busted, hand := [],
         currentBet := 0, actedInRound := false },
       { id := 3, chips := 0, seatIndex := 3, status := PStatus.busted, hand := [],
         currentBet := 0, actedInRound := false },
       { id := 4, chips := 0, seatIndex := 4, status := PStatus.busted, hand := [],
         currentBet := 0, actedInRound := false }],
    gameStatus := GStatus.waiting, minPlayers := 5, dealerIndex := 0,
    sbIndex := 0, bbIndex := 0, currentTurnIndex := 0, pot := 0, highestBet := 0,
    lastRaiseAmount := 0, communityCards := [], deck := [], roundName := Street.preflop }

def deckC2 : List Card :=
  [⟨2, 0⟩, ⟨3, 0⟩, ⟨4, 0⟩, ⟨5, 0⟩, ⟨6, 0⟩, ⟨7, 0⟩, ⟨8, 0⟩, ⟨9, 0⟩]

/-- C2 counterexample: immediately after `startGame` posts the blinds,
the game is `playing` and the first actor's seat is occupied, but its
occupant (the one-chip small blind, drained by the blind) is active
with exactly zero chips — refuting `chips > 0` at `currentTurnIndex`. -/
theorem turn_legality_cex :
    (startGame deckC2 roomC2).gameStatus = GStatus.playing ∧
    (∃ p ∈ (startGame deckC2 roomC2).players,
       p.seatIndex = (startGame deckC2 roomC2).currentTurnIndex) ∧
    (∀ p ∈ (startGame deckC2 roomC2).players,
       p.seatIndex = (startGame deckC2 roomC2).currentTurnIndex →
         p.status = PStatus.active ∧ p.chips = 0) := by
  decide

def roomC2w : Room :=
  { players :=
      [{ id := 1, chips := 100, seatIndex := 0, status := PStatus.active,
         hand := [⟨2, 0⟩, ⟨3, 0⟩], currentBet := 2, actedInRound := true },
       { id := 2, chips := 100, seatIndex := 1, status := PStatus.active,
         hand := [⟨4, 0⟩, ⟨5, 0⟩], currentBet := 2, actedInRound := false }],
    gameStatus := GStatus.playing, minPlayers := 5, dealerIndex := 0,
    sbIndex := 0, bbIndex := 1, currentTurnIndex := 0, pot := 0, highestBet := 2,
    lastRaiseAmount := 2, communityCards := [], deck := [], roundName := Street.preflop }

theorem turn_legality_witness :
    (roomC2w.gameStatus = GStatus.playing ∧
     scanNext roomC2w.players 9 ((roomC2w.currentTurnIndex + 1) % 9) = some 1 ∧
     2 ≤ (roomC2w.players.filter inHandP).length) ∧
    ((nextTurnF 5 roomC2w).currentTurnIndex = 1 ∧
     ∃ p ∈ roomC2w.players, p.seatIndex = 1 ∧ p.status = PStatus.active ∧ 0 < p.chips) ∧
    (∃ p ∈ (startGame deckC2 roomC2w).players,
       p.seatIndex = (startGame deckC2 roomC2w).currentTurnIndex ∧
       p.status = PStatus.active) :=
  ⟨⟨by decide, by decide, by decide⟩,
   turn_legality.1 roomC2w 1 4 (by decide) (by decide),
   turn_legality.2 deckC2 roomC2w (by decide)⟩


/-! ## C9: start quorum -/

theorem startGame_playing (d : List Card) (room : Room)
    (h2 : 2 ≤ (room.players.filter inHandP).length) :
    (startGame d room).gameStatus = GStatus.playing := by
  simp only [startGame]
  rw [if_neg (by omega)]

theorem resetForNextHand_inHandP_count (room : Room) :
    ((resetForNextHand room).players.filter inHandP).length =
      (room.players.filter inHandP).length := by
  simp only [resetForNextHand]
  rw [← List.countP_eq_length_filter, ← List.countP_eq_length_filter, List.countP_map]
  refine List.countP_congr ?_
  intro p _
  simp only [Function.comp, inHandP, decide_eq_true_eq]
  by_cases hs : p.status = PStatus.sittingOut
  · simp [hs]
  · by_cases hc : (0 : Int) < p.chips
    · simp [hs, hc]
    · simp [hs, hc]

theorem startNextHandOrWait_count (room : Room) :
    ((((resetForNextHand room).players.filter (fun p =>
        decide (p.status = PStatus.waiting ∨ p.status = PStatus.active ∨
          p.status = PStatus.ready))).filter (fun p => decide (0 < p.chips))).length) =
      (room.players.filter inHandP).length := by
  rw [List.filter_filter]
  simp only [resetForNextHand]
  rw [← List.countP_eq_length_filter, ← List.countP_eq_length_filter, List.countP_map]
  refine List.countP_congr ?_
  intro p _
  simp only [Function.comp, inHandP, decide_eq_true_eq, Bool.and_eq_true]
  by_cases hs : p.status = PStatus.sittingOut
  · simp [hs]
  · by_cases hc : (0 : Int) < p.chips
    · simp [hs, hc]
    · simp [hs, hc]

/-- C9 (amended): `startGameRequest` only checks that at least
`minPlayers` players are seated, regardless of chips, and then starts
whenever at least two seated players hold chips and are not sitting
out; a request with fewer seated players is a no-op.  The positive-chip
quorum of `minPlayers` is enforced only on the automatic post-showdown
path `startNextHandOrWait`, which stays `waiting` below it and starts
at or above it. -/
theorem start_quorum_amended :
    (∀ (d : List Card) (room : Room),
       room.gameStatus = GStatus.waiting →
       room.minPlayers ≤ room.players.length →
       2 ≤ (room.players.filter inHandP).length →
       (startGameRequest d room).gameStatus = GStatus.playing) ∧
    (∀ (d : List Card) (room : Room),
       room.players.length < room.minPlayers →
       startGameRequest d room = room) ∧
    (∀ (d : List Card) (room : Room),
       (room.players.filter inHandP).length < room.minPlayers →
       (startNextHandOrWait d room).gameStatus = GStatus.waiting) ∧
    (∀ (d : List Card) (room : Room),
       2 ≤ room.minPlayers →
       room.minPlayers ≤ (room.players.filter inHandP).length →
       (startNextHandOrWait d room).gameStatus = GStatus.playing) := by
  refine ⟨?_, ?_, ?_, ?_⟩
  · intro d room hw hmin h2
    unfold startGameRequest
    rw [if_neg (by simp [hw]), if_neg (by omega)]
    exact startGame_playing d room h2
  · intro d room hlt
    unfold startGameRequest
    by_cases hw : room.gameStatus ≠ GStatus.waiting
    · rw [if_pos hw]
    · rw [if_neg hw, if_pos hlt]
  · intro d room hlt
    have hm : (resetForNextHand room).minPlayers = room.minPlayers := rfl
    unfold startNextHandOrWait
    rw [if_neg (by rw [startNextHandOrWait_count, hm]; omega)]
    rfl
  · intro d room h2 hge
    have hm : (resetForNextHand room).minPlayers = room.minPlayers := rfl
    unfold startNextHandOrWait
    rw [if_pos (by rw [startNextHandOrWait_count, hm]; omega)]
    refine startGame_playing d _ ?_
    rw [resetForNextHand_inHandP_count]
    omega

/-- Waiting room with five seated players of whom only two hold
chips. -/
def roomC9 : Room :=
  { players :=
      [{ id := 0, chips := 50, seatIndex := 0, status := PStatus.waiting, hand := [],
         currentBet := 0, actedInRound := false },
       { id := 1, chips := 150, seatIndex := 1, status := PStatus.waiting, hand := [],
         currentBet := 0, actedInRound := false },
       { id := 2, chips := 0, seatIndex := 2, status := PStatus.busted, hand := [],
         currentBet := 0, actedInRound := false },
       { id := 3, chips := 0, seatIndex := 3, status := PStatus.busted, hand := [],
         currentBet := 0, actedInRound := false },
       { id := 4, chips := 0, seatIndex := 4, status := PStatus.busted, hand := [],
         currentBet := 0, actedInRound := false }],
    gameStatus := GStatus.waiting, minPlayers := 5, dealerIndex := 0,
    sbIndex := 0, bbIndex := 0, currentTurnIndex := 0, pot := 0, highestBet := 0,
    lastRaiseAmount := 0, communityCards := [], deck := [], roundName := Street.preflop }

def deckC9 : List Card :=
  [⟨2, 1⟩, ⟨3, 1⟩, ⟨4, 1⟩, ⟨5, 1⟩, ⟨6, 1⟩, ⟨7, 1⟩, ⟨8, 1⟩, ⟨9, 1⟩]

/-- C9 counterexample: a start request on a waiting table with five
seated players but only two positive-chip players — strictly fewer
than `minPlayers = 5` — transitions the table to `playing`, refuting
the claimed positive-chip quorum for `requestStart`. -/
theorem start_quorum_cex :
    roomC9.gameStatus = GStatus.waiting ∧
    (roomC9.players.filter (fun p => decide (0 < p.chips))).length < roomC9.minPlayers ∧
    (startGameRequest deckC9 roomC9).gameStatus = GStatus.playing := by
  decide

theorem start_quorum_amended_witness :
    (roomC9.gameStatus = GStatus.waiting ∧
     roomC9.minPlayers ≤ roomC9.players.length ∧
     2 ≤ (roomC9.players.filter inHandP).length) ∧
    (startGameRequest deckC9 roomC9).gameStatus = GStatus.playing :=
  ⟨⟨by decide, by decide, by decide⟩,
   start_quorum_amended.1 deckC9 roomC9 (by decide) (by decide) (by decide)⟩


/-! ## C8: showdown payout -/

instance : IsTotal (Player × Nat) (fun a b => b.2 ≤ a.2) :=
  ⟨fun a b => Nat.le_total b.2 a.2⟩

instance : IsTrans (Player × Nat) (fun a b => b.2 ≤ a.2) :=
  ⟨fun _ _ _ hab hbc => le_trans hbc hab⟩

theorem sortResults_head_max (l : List (Player × Nat)) (top : Player × Nat)
    (rest : List (Player × Nat))
    (hs : List.insertionSort (fun a b => b.2 ≤ a.2) l = top :: rest) :
    (∀ x ∈ l, x.2 ≤ top.2) ∧ top ∈ l := by
  have hperm := List.perm_insertionSort (fun a b => b.2 ≤ a.2) l
  have hsorted := List.sorted_insertionSort (fun a b => b.2 ≤ a.2) l
  rw [hs] at hperm hsorted
  constructor
  · intro x hx
    have hx' : x ∈ top :: rest := hperm.mem_iff.mpr hx
    rcases List.mem_cons.mp hx' with h | h
    · rw [h]
    · exact (List.sorted_cons.mp hsorted).1 x h
  · exact hperm.mem_iff.mp (List.mem_cons_self top rest)

/-- The winners predicate named by the showdown claim: a candidate
whose score is at least every candidate's score. -/
def bestScore (cands : List Player) (cc : List Card) (q : Player) : Prop :=
  ∀ r ∈ cands, evaluateHand r.hand cc ≤ evaluateHand q.hand cc

instance (cands : List Player) (cc : List Card) (q : Player) :
    Decidable (bestScore cands cc q) := by
  unfold bestScore
  infer_instance

/-- Number of candidates achieving the maximal showdown score. -/
def winnersCount (ps : List Player) (cc : List Card) : Nat :=
  ((ps.filter isCandidate).filter (fun q => decide (bestScore (ps.filter isCandidate) cc q))).length

/-- C8: Among candidates (not folded, not sitting out, holding a
hand), a sole candidate receives the entire pot; with two or more,
every candidate is scored with `evaluateHand` over their seven cards
and exactly the candidates of maximal score each gain
`floor(pot / winners)` chips while every other player gains nothing. -/
theorem showdown_payout (ps : List Player) (pot : Int) (cc : List Card) :
    ((ps.filter isCandidate).length = 1 →
       endHandPlayers ps pot cc =
         ps.map (fun p => if isCandidate p then { p with chips := p.chips + pot } else p)) ∧
    (2 ≤ (ps.filter isCandidate).length →
       endHandPlayers ps pot cc =
         ps.map (fun p =>
           if isCandidate p ∧ bestScore (ps.filter isCandidate) cc p then
             { p with chips := p.chips + Int.fdiv pot (winnersCount ps cc : Int) }
           else p)) := by
  constructor
  · intro h1
    unfold endHandPlayers
    rw [if_pos h1]
  · intro h2
    unfold endHandPlayers
    rw [if_neg (by omega)]
    set cands := ps.filter isCandidate with hcands
    set results := cands.map (fun p => (p, evaluateHand p.hand cc)) with hresults
    have hrlen : results.length = cands.length := List.length_map _ _
    have hslen : (List.insertionSort (fun a b => b.2 ≤ a.2) results).length = results.length :=
      (List.perm_insertionSort _ _).length_eq
    cases hs : List.insertionSort (fun a b => b.2 ≤ a.2) results with
    | nil =>
        exfalso
        rw [hs] at hslen
        simp at hslen
        omega
    | cons top rest =>
        simp only [List.head?_cons]
        obtain ⟨hmax, hmem⟩ := sortResults_head_max results top rest hs
        -- top corresponds to some candidate q0
        obtain ⟨q0, hq0c, hq0e⟩ := List.mem_map.mp hmem
        have htop2 : top.2 = evaluateHand q0.hand cc := by
          rw [← hq0e]
        -- score of any candidate is at most top.2
        have hle : ∀ q ∈ cands, evaluateHand q.hand cc ≤ top.2 := by
          intro q hq
          exact hmax (q, evaluateHand q.hand cc) (List.mem_map.mpr ⟨q, hq, rfl⟩)
        -- the equivalence between matching the top score and bestScore
        have hiff : ∀ q ∈ cands, (evaluateHand q.hand cc = top.2 ↔ bestScore cands cc q) := by
          intro q hq
          constructor
          · intro he r hr
            rw [he]
            exact hle r hr
          · intro hb
            refine le_antisymm (hle q hq) ?_
            rw [htop2]
            exact hb q0 hq0c
        -- winners count equality
        have hwin : (List.filter (fun r => decide (r.2 = top.2))
            (top :: rest)).length =
            (cands.filter (fun q => decide (bestScore cands cc q))).length := by
          rw [← hs, ← List.countP_eq_length_filter, ← List.countP_eq_length_filter]
          rw [(List.perm_insertionSort (fun a b => b.2 ≤ a.2) results).countP_eq]
          rw [hresults, List.countP_map]
          refine List.countP_congr ?_
          intro q hq
          simp only [Function.comp, decide_eq_true_eq]
          exact hiff q hq
        rw [hs]
        simp only [List.head?_cons]
        rw [hwin]
        rw [show winnersCount ps cc =
          (cands.filter (fun q => decide (bestScore cands cc q))).length from rfl]
        refine List.map_congr_left ?_
        intro p hp
        by_cases hc : isCandidate p = true
        · have hpc : p ∈ cands := List.mem_filter.mpr ⟨hp, hc⟩
          have hA : ((isCandidate p = true) ∧ evaluateHand p.hand cc = top.2) ↔
              ((isCandidate p = true) ∧ bestScore cands cc p) :=
            and_congr_right (fun _ => hiff p hpc)
          exact if_congr hA rfl rfl
        · rw [if_neg (by simp [hc]), if_neg (by simp [hc])]

def psC8 : List Player :=
  [{ id := 1, chips := 100, seatIndex := 0, status := PStatus.active,
     hand := [⟨14, 0⟩, ⟨14, 1⟩], currentBet := 0, actedInRound := true },
   { id := 2, chips := 80, seatIndex := 1, status := PStatus.active,
     hand := [⟨3, 0⟩, ⟨4, 1⟩], currentBet := 0, actedInRound := true },
   { id := 3, chips := 60, seatIndex := 2, status := PStatus.folded,
     hand := [⟨7, 2⟩, ⟨8, 2⟩], currentBet := 0, actedInRound := true }]

def ccC8 : List Card := [⟨5, 0⟩, ⟨9, 1⟩, ⟨11, 2⟩, ⟨12, 3⟩, ⟨2, 1⟩]

theorem showdown_payout_witness :
    2 ≤ (psC8.filter isCandidate).length ∧
    endHandPlayers psC8 10 ccC8 =
      psC8.map (fun p =>
        if isCandidate p ∧ bestScore (psC8.filter isCandidate) ccC8 p then
          { p with chips := p.chips + Int.fdiv 10 (winnersCount psC8 ccC8 : Int) }
        else p) :=
  ⟨by decide, (showdown_payout psC8 10 ccC8).2 (by decide)⟩


/-! ## C3: evaluator monotonicity -/

/-- Occurrences of a rank value in a hand. -/
def countV (cs : List Card) (v : Nat) : Nat := cs.countP (fun c => decide (c.value = v))

/-- Occurrences of a suit in a hand. -/
def suitCount (cs : List Card) (s : Nat) : Nat :=
  (cs.filter (fun d => decide (d.suit = s))).length

/-- A legal 7-card input: seven pairwise distinct real cards. -/
def ValidHand (cs : List Card) : Prop :=
  cs.length = 7 ∧ cs.Nodup ∧ ∀ c ∈ cs, 2 ≤ c.value ∧ c.value ≤ 14 ∧ c.suit < 4

/-- The hand realizes four-of-a-kind. -/
def hasQuads (cs : List Card) : Prop :=
  ∃ v ∈ cs.map (fun c => c.value), countV cs v = 4

/-- The hand realizes a full house: a rank with three cards and a
different rank with at least a pair. -/
def hasFullHouse (cs : List Card) : Prop :=
  ∃ v ∈ cs.map (fun c => c.value), ∃ w ∈ cs.map (fun c => c.value),
    v ≠ w ∧ 3 ≤ countV cs v ∧ 2 ≤ countV cs w

/-- The hand contains five cards of one suit with consecutive values
(ace counting high or low): a straight flush is realized. -/
def containsStraightFlush (cs : List Card) : Prop :=
  ∃ c ∈ cs, ∃ hi ∈ List.range 15, 5 ≤ hi ∧ ∀ k ∈ List.range 5,
    (∃ d ∈ cs, d.suit = c.suit ∧ d.value = hi - k) ∨
    (hi - k = 1 ∧ ∃ d ∈ cs, d.suit = c.suit ∧ d.value = 14)

theorem countP_split (p q : Card → Bool) (l : List Card) :
    l.countP p = l.countP (fun a => p a && q a) + l.countP (fun a => p a && !q a) := by
  induction l with
  | nil => rfl
  | cons a t ih =>
      simp only [List.countP_cons]
      by_cases hp : p a = true
      · by_cases hq : q a = true
        · simp only [hp, hq]
          simp
          omega
        · simp only [hp, Bool.not_eq_true] at *
          simp [hp, hq]
          omega
      · simp only [Bool.not_eq_true] at hp
        simp [hp]
        omega

theorem countP_singleton_le_one (cs : List Card) (hnd : cs.Nodup) (v s : Nat) :
    cs.countP (fun d => decide (d.suit = s) && decide (d.value = v)) ≤ 1 := by
  have h1 : cs.countP (fun d => decide (d.suit = s) && decide (d.value = v)) =
      cs.countP (fun d => d == (⟨v, s⟩ : Card)) := by
    refine List.countP_congr ?_
    intro d _
    rcases d with ⟨dv, ds⟩
    by_cases h1 : ds = s <;> by_cases h2 : dv = v <;> simp [h1, h2, Card.mk.injEq]
  rw [h1]
  have h2 : cs.countP (fun d => d == (⟨v, s⟩ : Card)) = cs.count (⟨v, s⟩ : Card) := rfl
  rw [h2]
  exact List.nodup_iff_count_le_one.mp hnd _

theorem length_countP_value (cs : List Card) (v : Nat) :
    cs.length = countV cs v + cs.countP (fun d => !decide (d.value = v)) := by
  have h := countP_split (fun _ => true) (fun d => decide (d.value = v)) cs
  have ht : cs.countP (fun _ => true) = cs.length := congrFun List.countP_true cs
  have h1 : cs.countP (fun a => true && decide (a.value = v)) = countV cs v := by
    refine List.countP_congr ?_
    intro d _
    simp
  have h2 : cs.countP (fun a => true && !decide (a.value = v)) =
      cs.countP (fun d => !decide (d.value = v)) := by
    refine List.countP_congr ?_
    intro d _
    simp
  omega

theorem suitCount_eq_countP (cs : List Card) (s : Nat) :
    suitCount cs s = cs.countP (fun d => decide (d.suit = s)) := by
  unfold suitCount
  rw [← List.countP_eq_length_filter]

theorem suitCount_le_of_quads (cs : List Card) (hlen : cs.length = 7) (hnd : cs.Nodup)
    (v : Nat) (h4 : 4 ≤ countV cs v) (s : Nat) : suitCount cs s ≤ 4 := by
  rw [suitCount_eq_countP]
  have hsplit := countP_split (fun d => decide (d.suit = s)) (fun d => decide (d.value = v)) cs
  have h1 := countP_singleton_le_one cs hnd v s
  have hmono : cs.countP (fun d => decide (d.suit = s) && !decide (d.value = v)) ≤
      cs.countP (fun d => !decide (d.value = v)) := by
    refine List.countP_mono_left ?_
    intro d _ h
    simp only [Bool.and_eq_true] at h
    exact h.2
  have hval := length_countP_value cs v
  omega

theorem suitCount_le_of_fullhouse (cs : List Card) (hlen : cs.length = 7) (hnd : cs.Nodup)
    (v w : Nat) (hvw : v ≠ w) (h3 : 3 ≤ countV cs v) (h2 : 2 ≤ countV cs w) (s : Nat) :
    suitCount cs s ≤ 4 := by
  rw [suitCount_eq_countP]
  have hsplit1 := countP_split (fun d => decide (d.suit = s)) (fun d => decide (d.value = v)) cs
  have hsplit2 := countP_split (fun d => decide (d.suit = s) && !decide (d.value = v))
    (fun d => decide (d.value = w)) cs
  have hv1 := countP_singleton_le_one cs hnd v s
  have hw1 : cs.countP (fun d => (decide (d.suit = s) && !decide (d.value = v)) &&
      decide (d.value = w)) ≤ 1 := by
    refine le_trans (List.countP_mono_left ?_) (countP_singleton_le_one cs hnd w s)
    intro d _ h
    simp only [Bool.and_eq_true] at h ⊢
    exact ⟨h.1.1, h.2⟩
  have hrest : cs.countP (fun d => (decide (d.suit = s) && !decide (d.value = v)) &&
      !decide (d.value = w)) ≤
      cs.countP (fun d => !decide (d.value = v) && !decide (d.value = w)) := by
    refine List.countP_mono_left ?_
    intro d _ h
    simp only [Bool.and_eq_true] at h ⊢
    exact ⟨h.1.2, h.2⟩
  have hvalsplit := countP_split (fun d => !decide (d.value = v)) (fun d => decide (d.value = w)) cs
  have hvw' : cs.countP (fun d => !decide (d.value = v) && decide (d.value = w)) = countV cs w := by
    refine List.countP_congr ?_
    intro d _
    by_cases h : d.value = w
    · have hnv : ¬ d.value = v := by
        rw [h]
        exact fun hh => hvw hh.symm
      simp [h, hnv, Ne.symm hvw]
    · simp [h]
  have hval := length_countP_value cs v
  have hvalw := length_countP_value cs w
  unfold countV at *
  omega

theorem countV_le_four (cs : List Card) (hnd : cs.Nodup)
    (hsuits : ∀ c ∈ cs, c.suit < 4) (v : Nat) : countV cs v ≤ 4 := by
  have hs0 := countP_split (fun d => decide (d.value = v)) (fun d => decide (d.suit = 0)) cs
  have hs1 := countP_split (fun d => decide (d.value = v) && !decide (d.suit = 0))
    (fun d => decide (d.suit = 1)) cs
  have hs2 := countP_split (fun d => (decide (d.value = v) && !decide (d.suit = 0)) &&
    !decide (d.suit = 1)) (fun d => decide (d.suit = 2)) cs
  have hs3 := countP_split (fun d => ((decide (d.value = v) && !decide (d.suit = 0)) &&
    !decide (d.suit = 1)) && !decide (d.suit = 2)) (fun d => decide (d.suit = 3)) cs
  have hz : cs.countP (fun d => (((decide (d.value = v) && !decide (d.suit = 0)) &&
      !decide (d.suit = 1)) && !decide (d.suit = 2)) && !decide (d.suit = 3)) = 0 := by
    rw [List.countP_eq_zero]
    intro d hd
    have := hsuits d hd
    simp only [Bool.and_eq_true, Bool.not_eq_true', decide_eq_false_iff_not,
      Bool.and_eq_true, decide_eq_true_eq]
    intro h
    omega
  have hb0 : cs.countP (fun d => decide (d.value = v) && decide (d.suit = 0)) ≤ 1 := by
    refine le_trans (List.countP_mono_left ?_) (countP_singleton_le_one cs hnd v 0)
    intro d _ h
    simp only [Bool.and_eq_true] at h ⊢
    exact ⟨h.2, h.1⟩
  have hb1 : cs.countP (fun d => (decide (d.value = v) && !decide (d.suit = 0)) &&
      decide (d.suit = 1)) ≤ 1 := by
    refine le_trans (List.countP_mono_left ?_) (countP_singleton_le_one cs hnd v 1)
    intro d _ h
    simp only [Bool.and_eq_true] at h ⊢
    exact ⟨h.2, h.1.1⟩
  have hb2 : cs.countP (fun d => ((decide (d.value = v) && !decide (d.suit = 0)) &&
      !decide (d.suit = 1)) && decide (d.suit = 2)) ≤ 1 := by
    refine le_trans (List.countP_mono_left ?_) (countP_singleton_le_one cs hnd v 2)
    intro d _ h
    simp only [Bool.and_eq_true] at h ⊢
    exact ⟨h.2, h.1.1.1⟩
  have hb3 : cs.countP (fun d => (((decide (d.value = v) && !decide (d.suit = 0)) &&
      !decide (d.suit = 1)) && !decide (d.suit = 2)) && decide (d.suit = 3)) ≤ 1 := by
    refine le_trans (List.countP_mono_left ?_) (countP_singleton_le_one cs hnd v 3)
    intro d _ h
    simp only [Bool.and_eq_true] at h ⊢
    exact ⟨h.2, h.1.1.1.1⟩
  unfold countV
  omega

theorem setDedup_go_mem (a : Nat) : ∀ (l acc : List Nat),
    (a ∈ l.foldl (fun acc v => if acc.contains v then acc else acc ++ [v]) acc) ↔
      a ∈ acc ∨ a ∈ l := by
  intro l
  induction l with
  | nil =>
      intro acc
      simp
  | cons v t ih =>
      intro acc
      simp only [List.foldl_cons]
      rw [ih]
      by_cases hc : acc.contains v = true
      · rw [if_pos hc]
        have hv : v ∈ acc := by
          simpa using hc
        simp only [List.mem_cons]
        constructor
        · intro hx
          rcases hx with hx | hx
          · exact Or.inl hx
          · exact Or.inr (Or.inr hx)
        · intro hx
          rcases hx with hx | hx | hx
          · exact Or.inl hx
          · rw [hx]
            exact Or.inl hv
          · exact Or.inr hx
      · rw [if_neg hc]
        simp [List.mem_append, List.mem_cons, or_assoc]
  
theorem setDedup_mem (l : List Nat) (a : Nat) : a ∈ setDedup l ↔ a ∈ l := by
  unfold setDedup
  rw [setDedup_go_mem]
  simp

theorem isFlush_eq_none (cs : List Card) (h : ∀ s, suitCount cs s ≤ 4) :
    isFlush cs = none := by
  unfold isFlush
  have hfind : cs.find? (fun c =>
      decide (5 ≤ (cs.filter (fun d => decide (d.suit = c.suit))).length)) = none := by
    refine List.find?_eq_none.mpr ?_
    intro c _
    simp only [decide_eq_true_eq]
    have := h c.suit
    unfold suitCount at this
    omega
  rw [hfind]

theorem count_map_value (cs : List Card) (u : Nat) :
    (cs.map (fun c => c.value)).count u = countV cs u := by
  have h1 : (cs.map (fun c => c.value)).count u =
      (cs.map (fun c => c.value)).countP (fun x => x == u) := rfl
  rw [h1, List.countP_map]
  refine List.countP_congr ?_
  intro d _
  by_cases h : d.value = u <;> simp [Function.comp, h]

theorem maxValue_le : ∀ (l : List Nat) (b : Nat), (∀ x ∈ l, x ≤ b) → maxValue l ≤ b := by
  intro l
  induction l with
  | nil =>
      intro b _
      simp [maxValue]
  | cons x t ih =>
      intro b h
      unfold maxValue
      simp only [List.foldr_cons]
      refine max_le (h x (List.mem_cons_self x t)) ?_
      exact ih b (fun y hy => h y (List.mem_cons_of_mem x hy))

theorem two_mem_length {α : Type} (l : List α) (a b : α) (ha : a ∈ l) (hb : b ∈ l)
    (hab : a ≠ b) : 2 ≤ l.length := by
  cases l with
  | nil => simp at ha
  | cons x t =>
      cases t with
      | nil =>
          simp at ha hb
          exact absurd (ha.trans hb.symm) hab
      | cons y u =>
          simp only [List.length_cons]
          omega

theorem evaluateHand_of_sf (h c : List Card) (fc : List Card) (hi : Nat)
    (hf : isFlush (sortCardsDesc (h ++ c)) = some fc) (hs : isStraight fc = some hi) :
    evaluateHand h c = 900 + hi := by
  simp only [evaluateHand]
  rw [hf]
  dsimp only
  rw [hs]

theorem evaluateHand_of_quads (h c : List Card)
    (hv : ValidHand (h ++ c)) (hq : hasQuads (h ++ c)) :
    ∃ q, evaluateHand h c = 800 + q ∧ 2 ≤ q ∧ q ≤ 14 := by
  obtain ⟨hlen, hnd, hbounds⟩ := hv
  obtain ⟨v, hvmem, hv4⟩ := hq
  have hperm : List.Perm (sortCardsDesc (h ++ c)) (h ++ c) := List.perm_insertionSort _ _
  have hSlen : (sortCardsDesc (h ++ c)).length = 7 := by rw [hperm.length_eq, hlen]
  have hSnd : (sortCardsDesc (h ++ c)).Nodup := hperm.nodup_iff.mpr hnd
  have hScount : ∀ u, countV (sortCardsDesc (h ++ c)) u = countV (h ++ c) u := fun u =>
    hperm.countP_eq _
  have hnoflush : isFlush (sortCardsDesc (h ++ c)) = none := by
    refine isFlush_eq_none _ ?_
    intro s
    refine suitCount_le_of_quads _ hSlen hSnd v ?_ s
    rw [hScount]
    omega
  have hvS : countV (sortCardsDesc (h ++ c)) v = 4 := by rw [hScount]; exact hv4
  have hvmemS : v ∈ (sortCardsDesc (h ++ c)).map (fun d => d.value) := by
    have hpos : 0 < (sortCardsDesc (h ++ c)).countP (fun d => decide (d.value = v)) := by
      have : countV (sortCardsDesc (h ++ c)) v = 4 := hvS
      unfold countV at this
      omega
    obtain ⟨d, hd, hdv⟩ := List.countP_pos_iff.mp hpos
    refine List.mem_map.mpr ⟨d, hd, ?_⟩
    simpa using hdv
  have hkeys : v ∈ setDedup ((sortCardsDesc (h ++ c)).map (fun d => d.value)) :=
    (setDedup_mem _ _).mpr hvmemS
  have hcnt : ((sortCardsDesc (h ++ c)).map (fun d => d.value)).count v = 4 := by
    rw [count_map_value]
    exact hvS
  have hqmem : v ∈ (setDedup ((sortCardsDesc (h ++ c)).map (fun d => d.value))).filter
      (fun k => ((sortCardsDesc (h ++ c)).map (fun d => d.value)).count k = 4) := by
    refine List.mem_filter.mpr ⟨hkeys, ?_⟩
    simp [hcnt]
  have hqne : (setDedup ((sortCardsDesc (h ++ c)).map (fun d => d.value))).filter
      (fun k => ((sortCardsDesc (h ++ c)).map (fun d => d.value)).count k = 4) ≠ [] :=
    List.ne_nil_of_mem hqmem
  simp only [evaluateHand]
  rw [hnoflush]
  dsimp only
  rw [if_pos hqne]
  refine ⟨((setDedup ((sortCardsDesc (h ++ c)).map (fun d => d.value))).filter
      (fun k => ((sortCardsDesc (h ++ c)).map (fun d => d.value)).count k = 4)).headD 0,
      rfl, ?_, ?_⟩
  all_goals
    cases hq0 : (setDedup ((sortCardsDesc (h ++ c)).map (fun d => d.value))).filter
        (fun k => ((sortCardsDesc (h ++ c)).map (fun d => d.value)).count k = 4) with
    | nil => exact absurd hq0 hqne
    | cons a t =>
        have hamem : a ∈ (setDedup ((sortCardsDesc (h ++ c)).map (fun d => d.value))).filter
            (fun k => ((sortCardsDesc (h ++ c)).map (fun d => d.value)).count k = 4) := by
          rw [hq0]
          exact List.mem_cons_self a t
        have hak : a ∈ setDedup ((sortCardsDesc (h ++ c)).map (fun d => d.value)) :=
          (List.mem_filter.mp hamem).1
        have hav : a ∈ (sortCardsDesc (h ++ c)).map (fun d => d.value) :=
          (setDedup_mem _ _).mp hak
        obtain ⟨d, hd, hdv⟩ := List.mem_map.mp hav
        have hdL : d ∈ h ++ c := hperm.mem_iff.mp hd
        have hb := hbounds d hdL
        simp only [List.headD_cons]
        omega

theorem mem_values_of_countV_pos (cs : List Card) (u : Nat) (hpos : 0 < countV cs u) :
    u ∈ cs.map (fun d => d.value) := by
  obtain ⟨d, hd, hdv⟩ := List.countP_pos_iff.mp hpos
  exact List.mem_map.mpr ⟨d, hd, by simpa using hdv⟩

theorem evaluateHand_of_fullhouse (h c : List Card)
    (hv : ValidHand (h ++ c)) (hfh : hasFullHouse (h ++ c)) (hnq : ¬ hasQuads (h ++ c)) :
    ∃ t, evaluateHand h c = 700 + t ∧ t ≤ 14 := by
  obtain ⟨hlen, hnd, hbounds⟩ := hv
  obtain ⟨v, hvmem, w, hwmem, hvw, hv3, hw2⟩ := hfh
  have hperm : List.Perm (sortCardsDesc (h ++ c)) (h ++ c) := List.perm_insertionSort _ _
  have hSlen : (sortCardsDesc (h ++ c)).length = 7 := by rw [hperm.length_eq, hlen]
  have hSnd : (sortCardsDesc (h ++ c)).Nodup := hperm.nodup_iff.mpr hnd
  have hScount : ∀ u, countV (sortCardsDesc (h ++ c)) u = countV (h ++ c) u := fun u =>
    hperm.countP_eq _
  have hmapperm : List.Perm ((sortCardsDesc (h ++ c)).map (fun d => d.value))
      ((h ++ c).map (fun d => d.value)) := hperm.map _
  have hvle : countV (h ++ c) v ≤ 4 :=
    countV_le_four _ hnd (fun d hd => (hbounds d hd).2.2) v
  have hwle : countV (h ++ c) w ≤ 4 :=
    countV_le_four _ hnd (fun d hd => (hbounds d hd).2.2) w
  have hnq' : ∀ u, u ∈ (h ++ c).map (fun d => d.value) → countV (h ++ c) u ≠ 4 :=
    fun u hu h4 => hnq ⟨u, hu, h4⟩
  have hv3e : countV (h ++ c) v = 3 := by
    have := hnq' v hvmem
    omega
  have hwe : countV (h ++ c) w = 2 ∨ countV (h ++ c) w = 3 := by
    have := hnq' w hwmem
    omega
  have hnoflush : isFlush (sortCardsDesc (h ++ c)) = none := by
    refine isFlush_eq_none _ ?_
    intro s
    refine suitCount_le_of_fullhouse _ hSlen hSnd v w hvw ?_ ?_ s
    · rw [hScount]
      omega
    · rw [hScount]
      omega
  have hcntS : ∀ u, ((sortCardsDesc (h ++ c)).map (fun d => d.value)).count u =
      countV (h ++ c) u := by
    intro u
    rw [count_map_value, hScount]
  have hvmemS : v ∈ (sortCardsDesc (h ++ c)).map (fun d => d.value) := by
    refine mem_values_of_countV_pos _ _ ?_
    rw [hScount]
    omega
  have hwmemS : w ∈ (sortCardsDesc (h ++ c)).map (fun d => d.value) := by
    refine mem_values_of_countV_pos _ _ ?_
    rw [hScount]
    omega
  have hqnil : (setDedup ((sortCardsDesc (h ++ c)).map (fun d => d.value))).filter
      (fun k => ((sortCardsDesc (h ++ c)).map (fun d => d.value)).count k = 4) = [] := by
    rw [List.filter_eq_nil_iff]
    intro k hk
    have hkv : k ∈ (h ++ c).map (fun d => d.value) :=
      hmapperm.mem_iff.mp ((setDedup_mem _ _).mp hk)
    simp only [decide_eq_true_eq, hcntS]
    exact hnq' k hkv
  have hvtrip : v ∈ (setDedup ((sortCardsDesc (h ++ c)).map (fun d => d.value))).filter
      (fun k => ((sortCardsDesc (h ++ c)).map (fun d => d.value)).count k = 3) := by
    refine List.mem_filter.mpr ⟨(setDedup_mem _ _).mpr hvmemS, ?_⟩
    simp only [decide_eq_true_eq, hcntS]
    omega
  have htne : (setDedup ((sortCardsDesc (h ++ c)).map (fun d => d.value))).filter
      (fun k => ((sortCardsDesc (h ++ c)).map (fun d => d.value)).count k = 3) ≠ [] :=
    List.ne_nil_of_mem hvtrip
  have hsecond : 2 ≤ ((setDedup ((sortCardsDesc (h ++ c)).map (fun d => d.value))).filter
      (fun k => ((sortCardsDesc (h ++ c)).map (fun d => d.value)).count k = 3)).length ∨
      (setDedup ((sortCardsDesc (h ++ c)).map (fun d => d.value))).filter
      (fun k => ((sortCardsDesc (h ++ c)).map (fun d => d.value)).count k = 2) ≠ [] := by
    rcases hwe with hwe | hwe
    · refine Or.inr ?_
      refine List.ne_nil_of_mem (a := w) ?_
      refine List.mem_filter.mpr ⟨(setDedup_mem _ _).mpr hwmemS, ?_⟩
      simp only [decide_eq_true_eq, hcntS]
      omega
    · refine Or.inl ?_
      have hwtrip : w ∈ (setDedup ((sortCardsDesc (h ++ c)).map (fun d => d.value))).filter
          (fun k => ((sortCardsDesc (h ++ c)).map (fun d => d.value)).count k = 3) := by
        refine List.mem_filter.mpr ⟨(setDedup_mem _ _).mpr hwmemS, ?_⟩
        simp only [decide_eq_true_eq, hcntS]
        omega
      exact two_mem_length _ v w hvtrip hwtrip hvw
  simp only [evaluateHand]
  rw [hnoflush]
  dsimp only
  rw [if_neg (fun hh => hh hqnil), if_pos ⟨htne, hsecond⟩]
  refine ⟨maxValue ((setDedup ((sortCardsDesc (h ++ c)).map (fun d => d.value))).filter
      (fun k => ((sortCardsDesc (h ++ c)).map (fun d => d.value)).count k = 3)), rfl, ?_⟩
  refine maxValue_le _ 14 ?_
  intro x hx
  have hxv : x ∈ (h ++ c).map (fun d => d.value) :=
    hmapperm.mem_iff.mp ((setDedup_mem _ _).mp (List.mem_filter.mp hx).1)
  obtain ⟨d, hd, hdv⟩ := List.mem_map.mp hxv
  have := (hbounds d hd).2.1
  omega

instance (cs : List Card) : Decidable (ValidHand cs) := by
  unfold ValidHand
  infer_instance

instance (cs : List Card) : Decidable (hasQuads cs) := by
  unfold hasQuads
  infer_instance

instance (cs : List Card) : Decidable (hasFullHouse cs) := by
  unfold hasFullHouse
  infer_instance

instance (cs : List Card) : Decidable (containsStraightFlush cs) := by
  unfold containsStraightFlush
  infer_instance

/-- C3 (amended): Every 7-card input on which the evaluator detects a
straight flush (a straight within the top five cards of the flush
suit) strictly outscores every input realizing four of a kind, and
every four-of-a-kind input strictly outscores every full-house input.
The original claim over all inputs merely containing a straight flush
fails: when the flush suit holds more than five cards and the straight
is not among its top five, the hand scores as a plain flush below
four of a kind (see the counterexample). -/
theorem evaluator_monotonicity (h1 c1 h2 c2 h3 c3 : List Card) (fc : List Card) (hi : Nat)
    (hv2 : ValidHand (h2 ++ c2)) (hv3 : ValidHand (h3 ++ c3))
    (hf1 : isFlush (sortCardsDesc (h1 ++ c1)) = some fc)
    (hs1 : isStraight fc = some hi)
    (hq2 : hasQuads (h2 ++ c2))
    (hfh3 : hasFullHouse (h3 ++ c3)) (hnq3 : ¬ hasQuads (h3 ++ c3)) :
    evaluateHand h2 c2 < evaluateHand h1 c1 ∧ evaluateHand h3 c3 < evaluateHand h2 c2 := by
  obtain ⟨q, hq, hqlo, hqhiB⟩ := evaluateHand_of_quads h2 c2 hv2 hq2
  obtain ⟨t, ht, hthiB⟩ := evaluateHand_of_fullhouse h3 c3 hv3 hfh3 hnq3
  rw [evaluateHand_of_sf h1 c1 fc hi hf1 hs1, hq, ht]
  omega

/-- C3 counterexample: the hand A-K-9-8-7-6-5 all in spades contains
the straight flush 9-8-7-6-5 of spades yet scores 614 (flush, ace
high), strictly below quad aces at 814 — refuting the claim for
inputs that realize a straight flush. -/
theorem evaluator_monotonicity_cex :
    containsStraightFlush ([⟨14, 0⟩, ⟨13, 0⟩] ++ [⟨9, 0⟩, ⟨8, 0⟩, ⟨7, 0⟩, ⟨6, 0⟩, ⟨5, 0⟩]) ∧
    ValidHand ([⟨14, 0⟩, ⟨13, 0⟩] ++ [⟨9, 0⟩, ⟨8, 0⟩, ⟨7, 0⟩, ⟨6, 0⟩, ⟨5, 0⟩]) ∧
    hasQuads ([⟨14, 2⟩, ⟨14, 3⟩] ++ [⟨14, 0⟩, ⟨14, 1⟩, ⟨13, 0⟩, ⟨12, 0⟩, ⟨11, 0⟩]) ∧
    ValidHand ([⟨14, 2⟩, ⟨14, 3⟩] ++ [⟨14, 0⟩, ⟨14, 1⟩, ⟨13, 0⟩, ⟨12, 0⟩, ⟨11, 0⟩]) ∧
    evaluateHand [⟨14, 0⟩, ⟨13, 0⟩] [⟨9, 0⟩, ⟨8, 0⟩, ⟨7, 0⟩, ⟨6, 0⟩, ⟨5, 0⟩] <
      evaluateHand [⟨14, 2⟩, ⟨14, 3⟩] [⟨14, 0⟩, ⟨14, 1⟩, ⟨13, 0⟩, ⟨12, 0⟩, ⟨11, 0⟩] := by
  decide

theorem evaluator_monotonicity_witness :
    (isFlush (sortCardsDesc ([⟨9, 0⟩, ⟨8, 0⟩] ++ [⟨7, 0⟩, ⟨6, 0⟩, ⟨5, 0⟩, ⟨14, 1⟩, ⟨13, 2⟩])) =
       some [⟨9, 0⟩, ⟨8, 0⟩, ⟨7, 0⟩, ⟨6, 0⟩, ⟨5, 0⟩] ∧
     isStraight [⟨9, 0⟩, ⟨8, 0⟩, ⟨7, 0⟩, ⟨6, 0⟩, ⟨5, 0⟩] = some 9 ∧
     ValidHand ([⟨13, 2⟩, ⟨13, 3⟩] ++ [⟨13, 0⟩, ⟨13, 1⟩, ⟨2, 0⟩, ⟨5, 1⟩, ⟨7, 2⟩]) ∧
     hasQuads ([⟨13, 2⟩, ⟨13, 3⟩] ++ [⟨13, 0⟩, ⟨13, 1⟩, ⟨2, 0⟩, ⟨5, 1⟩, ⟨7, 2⟩]) ∧
     ValidHand ([⟨12, 0⟩, ⟨12, 1⟩] ++ [⟨12, 2⟩, ⟨3, 0⟩, ⟨3, 1⟩, ⟨8, 3⟩, ⟨4, 2⟩]) ∧
     hasFullHouse ([⟨12, 0⟩, ⟨12, 1⟩] ++ [⟨12, 2⟩, ⟨3, 0⟩, ⟨3, 1⟩, ⟨8, 3⟩, ⟨4, 2⟩]) ∧
     ¬ hasQuads ([⟨12, 0⟩, ⟨12, 1⟩] ++ [⟨12, 2⟩, ⟨3, 0⟩, ⟨3, 1⟩, ⟨8, 3⟩, ⟨4, 2⟩])) ∧
    (evaluateHand [⟨13, 2⟩, ⟨13, 3⟩] [⟨13, 0⟩, ⟨13, 1⟩, ⟨2, 0⟩, ⟨5, 1⟩, ⟨7, 2⟩] <
       evaluateHand [⟨9, 0⟩, ⟨8, 0⟩] [⟨7, 0⟩, ⟨6, 0⟩, ⟨5, 0⟩, ⟨14, 1⟩, ⟨13, 2⟩] ∧
     evaluateHand [⟨12, 0⟩, ⟨12, 1⟩] [⟨12, 2⟩, ⟨3, 0⟩, ⟨3, 1⟩, ⟨8, 3⟩, ⟨4, 2⟩] <
       evaluateHand [⟨13, 2⟩, ⟨13, 3⟩] [⟨13, 0⟩, ⟨13, 1⟩, ⟨2, 0⟩, ⟨5, 1⟩, ⟨7, 2⟩]) :=
  ⟨⟨by decide, by decide, by decide, by decide, by decide, by decide, by decide⟩,
   evaluator_monotonicity [⟨9, 0⟩, ⟨8, 0⟩] [⟨7, 0⟩, ⟨6, 0⟩, ⟨5, 0⟩, ⟨14, 1⟩, ⟨13, 2⟩]
     [⟨13, 2⟩, ⟨13, 3⟩] [⟨13, 0⟩, ⟨13, 1⟩, ⟨2, 0⟩, ⟨5, 1⟩, ⟨7, 2⟩]
     [⟨12, 0⟩, ⟨12, 1⟩] [⟨12, 2⟩, ⟨3, 0⟩, ⟨3, 1⟩, ⟨8, 3⟩, ⟨4, 2⟩]
     [⟨9, 0⟩, ⟨8, 0⟩, ⟨7, 0⟩, ⟨6, 0⟩, ⟨5, 0⟩] 9
     (by decide) (by decide) (by decide) (by decide) (by decide) (by decide) (by decide)⟩

end PokerLan
